import Mathlib

/-!
Verification of the binary-search-tree / AVL ordered-map implementation in
`src/Assignment_8_start.py`.

The Python classes are shallowly embedded as follows.

* `BTree α` is the linked binary tree of `LinkedBinaryTree`: a node holds an
  element and owns up to two children.  A `Position` is modelled as the `Path`
  (list of left/right steps) from the root to the node it designates.
* The `TreeMap` layer instantiates the element type with `Int × V`
  (an `_Item`: key and value).  Operations that can raise a Python exception
  return a result carrying the exception and the tree state at the moment the
  exception escaped (the Python objects are mutated in place, so a raised
  exception can leave a partially mutated tree behind; `Res` / `DRes` record
  that state faithfully).
* The `AVLTreeMap` layer is `ABTree V`: the same tree with the extra
  `_balance_factor` field of the AVL `_Node`.  The three
  `update_balance_factor_for_*` methods of the source have body `pass`, so
  their embeddings return the tree unchanged.
* A second, pointer-level model (`Store`/`AMap`/`APos`) embeds the node arena
  with parent links and container identity; it is used for the
  `_validate` ownership/tombstone checks, which the path model cannot express.
-/

namespace A8

inductive Dir : Type where
  | left
  | right
deriving DecidableEq, Repr

abbrev Path := List Dir

/-- Python exceptions raised by the source. -/
inductive PyErr : Type where
  | valueError (msg : String)
  | typeError (msg : String)
  | keyError
  | unboundLocalError
deriving DecidableEq, Repr

/-- `LinkedBinaryTree`: a node stores an element, a parent link (implicit in
the inductive structure) and up to two children. `nil` is Python's `None`. -/
inductive BTree (α : Type) : Type where
  | nil : BTree α
  | node (l : BTree α) (e : α) (r : BTree α) : BTree α
deriving DecidableEq, Repr

namespace BTree

def isNil {α : Type} : BTree α → Bool
  | nil => true
  | node _ _ _ => false

/-- Follow a path of child links from the root of `t`; `none` when a step
descends from a `None` child (no such node exists). -/
def subtreeAt {α : Type} : BTree α → Path → Option (BTree α)
  | t, [] => some t
  | node l _ _, Dir.left :: p => subtreeAt l p
  | node _ _ r, Dir.right :: p => subtreeAt r p
  | nil, _ :: _ => none

/-- The element stored at the node designated by `p` (`Position.element`). -/
def elemAt {α : Type} (t : BTree α) (p : Path) : Option α :=
  match subtreeAt t p with
  | some (node _ e _) => some e
  | _ => none

/-- A path is a valid position when it leads to an actual node. -/
def validPos {α : Type} (t : BTree α) (p : Path) : Bool :=
  match subtreeAt t p with
  | some (node _ _ _) => true
  | _ => false

/-- `LinkedBinaryTree._height2`: 0 for a leaf, otherwise one more than the
tallest child. -/
def height2 {α : Type} : BTree α → Nat
  | nil => 0
  | node nil _ nil => 0
  | node l _ r => 1 + max (height2 l) (height2 r)

/-- `LinkedBinaryTree.height()` with no argument: height of the whole tree. -/
def height {α : Type} (t : BTree α) : Nat := height2 t

/-- `LinkedBinaryTree._subtree_inorder`, collected into a list of elements. -/
def inorder {α : Type} : BTree α → List α
  | nil => []
  | node l e r => inorder l ++ e :: inorder r

/-- `len(tree)`: the `_size` counter, which equals the number of nodes. -/
def sizeT {α : Type} (t : BTree α) : Nat := (inorder t).length

/-- Reassign the child slot designated by `p` to the subtree `s`
(the pointer-relink effect of the Python mutators). -/
def setSubtreeAt {α : Type} : BTree α → Path → BTree α → BTree α
  | _, [], s => s
  | node l e r, Dir.left :: p, s => node (setSubtreeAt l p s) e r
  | node l e r, Dir.right :: p, s => node l e (setSubtreeAt r p s)
  | nil, _ :: _, _ => nil

/-- `LinkedBinaryTree._add_left`: new left child holding `e`;
`none` when the position is invalid or the left child exists (ValueError). -/
def addLeftAt {α : Type} (t : BTree α) (p : Path) (e : α) : Option (BTree α) :=
  match subtreeAt t p with
  | some (node nil item r) =>
      some (setSubtreeAt t p (node (node nil e nil) item r))
  | _ => none

/-- `LinkedBinaryTree._add_right`: symmetric to `addLeftAt`. -/
def addRightAt {α : Type} (t : BTree α) (p : Path) (e : α) : Option (BTree α) :=
  match subtreeAt t p with
  | some (node l item nil) =>
      some (setSubtreeAt t p (node l item (node nil e nil)))
  | _ => none

/-- `LinkedBinaryTree._replace`: overwrite the element stored at `p`. -/
def replaceAt {α : Type} (t : BTree α) (p : Path) (e : α) : Option (BTree α) :=
  match subtreeAt t p with
  | some (node l _ r) => some (setSubtreeAt t p (node l e r))
  | _ => none

end BTree

/-- Result of a primitive that returns an element and may raise: `ok` carries
the new tree and the returned element, `err` carries the exception and the
tree state at the moment the exception escaped. -/
inductive DRes (α : Type) : Type where
  | ok (t : BTree α) (el : α)
  | err (e : PyErr) (t : BTree α)
deriving DecidableEq, Repr

/-- The tree state after the primitive, whether or not it raised. -/
def DRes.tree {α : Type} : DRes α → BTree α
  | DRes.ok t _ => t
  | DRes.err _ t => t

namespace BTree

/-- `LinkedBinaryTree._delete` (source lines 265–287), including its
indentation slip: the statement `if node is parent._left:` is *outside* the
`else:` branch that assigns `parent`, so when the deleted node is the root the
assignment `self._root = child` happens and then the unbound local `parent`
raises `UnboundLocalError`.  The `err` constructor records that partially
mutated state. -/
def lbt_delete {α : Type} (t : BTree α) (p : Path) : DRes α :=
  match subtreeAt t p with
  | some (node l el r) =>
      if !isNil l && !isNil r then
        DRes.err (PyErr.valueError "Position has two children") t
      else
        let child := if !isNil l then l else r
        match p with
        | [] => DRes.err PyErr.unboundLocalError child
        | _ :: _ => DRes.ok (setSubtreeAt t p child) el
  | _ => DRes.err (PyErr.valueError "p is no longer valid") t

end BTree

open BTree

/-! ## The `TreeMap` layer

Elements are `_Item`s: key/value pairs, keys compared with `<` / `==`.
We use `Int` keys (the tests use Python ints) and an arbitrary value type. -/

/-- `TreeMap._subtree_search`: exact match, or the last node visited.
The returned path is relative to the subtree searched. -/
def subtree_search {V : Type} : BTree (Int × V) → Int → Path
  | BTree.nil, _ => []
  | BTree.node l e r, k =>
      if k = e.1 then []
      else if k < e.1 then
        if isNil l then [] else Dir.left :: subtree_search l k
      else
        if isNil r then [] else Dir.right :: subtree_search r k

/-- `TreeMap._subtree_first_position`: keep walking left. -/
def subtree_first_path {α : Type} : BTree α → Path
  | BTree.node (BTree.node a b c) _ _ =>
      Dir.left :: subtree_first_path (BTree.node a b c)
  | _ => []

/-- `TreeMap._subtree_last_position`: keep walking right. -/
def subtree_last_path {α : Type} : BTree α → Path
  | BTree.node _ _ (BTree.node a b c) =>
      Dir.right :: subtree_last_path (BTree.node a b c)
  | _ => []

/-- The upward phase of `TreeMap.after`: walk toward the root while the
current node is a right child, then step to the parent; the argument is the
reversed path. `none` means the walk ran past the root. -/
def afterUpRev : List Dir → Option Path
  | [] => none
  | Dir.right :: rest => afterUpRev rest
  | Dir.left :: rest => some rest

/-- The upward phase of `TreeMap.before` (mirror image of `afterUpRev`). -/
def beforeUpRev : List Dir → Option Path
  | [] => none
  | Dir.left :: rest => beforeUpRev rest
  | Dir.right :: rest => some rest

/-- `TreeMap.after`: the position following `p` in key order
(`none` when `p` is the last position, or invalid). -/
def after {α : Type} (t : BTree α) (p : Path) : Option Path :=
  match subtreeAt t p with
  | some (BTree.node _ _ r) =>
      if isNil r then (afterUpRev p.reverse).map List.reverse
      else some (p ++ Dir.right :: subtree_first_path r)
  | _ => none

/-- `TreeMap.before`: the position preceding `p` in key order. -/
def before {α : Type} (t : BTree α) (p : Path) : Option Path :=
  match subtreeAt t p with
  | some (BTree.node l _ _) =>
      if isNil l then (beforeUpRev p.reverse).map List.reverse
      else some (p ++ Dir.left :: subtree_last_path l)
  | _ => none

/-- `TreeMap.find_position`: `None` on an empty map, otherwise the search
result (the `_rebalance_access` hook is a no-op for `TreeMap`). -/
def find_position {V : Type} (t : BTree (Int × V)) (k : Int) : Option Path :=
  if isNil t then none else some (subtree_search t k)

/-- Result of a mutating map operation: `ok` the new tree, or `err` the
escaped exception together with the tree state it left behind. -/
inductive Res (V : Type) : Type where
  | ok (t : BTree (Int × V))
  | err (e : PyErr) (t : BTree (Int × V))
deriving DecidableEq, Repr

/-- The tree state after the operation, whether or not it raised. -/
def Res.tree {V : Type} : Res V → BTree (Int × V)
  | Res.ok t => t
  | Res.err _ t => t

/-- `TreeMap.__setitem__`: insert `k ↦ v`, overwriting in place when the key
is already present (in that case only the access hook fires and the method
returns early, performing no structural change). -/
def setitem {V : Type} (t : BTree (Int × V)) (k : Int) (v : V) : Res V :=
  match t with
  | BTree.nil => Res.ok (BTree.node BTree.nil (k, v) BTree.nil)
  | BTree.node _ _ _ =>
      let p := subtree_search t k
      match elemAt t p with
      | some e =>
          if e.1 = k then
            match replaceAt t p (k, v) with
            | some t2 => Res.ok t2
            | none => Res.err (PyErr.valueError "p is no longer valid") t
          else if e.1 < k then
            match addRightAt t p (k, v) with
            | some t2 => Res.ok t2
            | none => Res.err (PyErr.valueError "Right child exists") t
          else
            match addLeftAt t p (k, v) with
            | some t2 => Res.ok t2
            | none => Res.err (PyErr.valueError "Left child exists") t
      | none => Res.err (PyErr.valueError "p is no longer valid") t

/-- `TreeMap.delete` (positional): a node with two children is first
overwritten with its in-order predecessor (the last position of its left
subtree) and the predecessor's node is deleted instead; then
`LinkedBinaryTree._delete` splices out the node (the `_rebalance_delete` hook
is a no-op for `TreeMap`). -/
def tm_delete {V : Type} (t : BTree (Int × V)) (p : Path) : Res V :=
  match subtreeAt t p with
  | some (BTree.node l _ r) =>
      if !isNil l && !isNil r then
        let rp := p ++ Dir.left :: subtree_last_path l
        match elemAt t rp with
        | some re =>
            match replaceAt t p re with
            | some t2 =>
                match lbt_delete t2 rp with
                | DRes.ok t3 _ => Res.ok t3
                | DRes.err e t3 => Res.err e t3
            | none => Res.err (PyErr.valueError "p is no longer valid") t
        | none => Res.err (PyErr.valueError "p is no longer valid") t
      else
        match lbt_delete t p with
        | DRes.ok t2 _ => Res.ok t2
        | DRes.err e t2 => Res.err e t2
  | _ => Res.err (PyErr.valueError "p is no longer valid") t

/-- `TreeMap.__delitem__`: delete by key; `KeyError` when absent. -/
def delitem {V : Type} (t : BTree (Int × V)) (k : Int) : Res V :=
  match t with
  | BTree.nil => Res.err PyErr.keyError t
  | BTree.node _ _ _ =>
      let p := subtree_search t k
      match elemAt t p with
      | some e =>
          if k = e.1 then tm_delete t p
          else Res.err PyErr.keyError t
      | none => Res.err PyErr.keyError t

/-- The initial-position logic shared verbatim by `TreeMap.find_ge`
(lines 652–655) and `TreeMap.find_range` (lines 681–684): `None` on an empty
map; otherwise the `find_position` result, advanced by `after` when its key
is still below `k`. -/
def ge_position {V : Type} (t : BTree (Int × V)) (k : Int) : Option Path :=
  match find_position t k with
  | none => none
  | some p =>
      match elemAt t p with
      | some e => if e.1 < k then after t p else some p
      | none => none

/-- `TreeMap.find_ge`: the (key, value) pair with the least key `≥ k`. -/
def find_ge {V : Type} (t : BTree (Int × V)) (k : Int) : Option (Int × V) :=
  match ge_position t k with
  | none => none
  | some p => elemAt t p

/-- The `while` loop of `TreeMap.find_range`, with explicit fuel (the loop
advances through distinct positions, so `sizeT t` steps always suffice). -/
def find_range_loop {V : Type} (t : BTree (Int × V)) :
    Nat → Option Path → Option Int → List (Int × V)
  | 0, _, _ => []
  | _ + 1, none, _ => []
  | fuel + 1, some p, stop =>
      match elemAt t p with
      | some e =>
          match stop with
          | none => e :: find_range_loop t fuel (after t p) none
          | some s =>
              if e.1 < s then e :: find_range_loop t fuel (after t p) (some s)
              else []
      | none => []

/-- `TreeMap.find_range(start, stop)`: all pairs with `start ≤ key < stop`,
each bound optional; starts at `first()` resp. the `find_ge`-style position,
then repeatedly takes `after`. -/
def find_range {V : Type} (t : BTree (Int × V)) (start stop : Option Int) :
    List (Int × V) :=
  if isNil t then []
  else
    let p0 : Option Path :=
      match start with
      | none => some (subtree_first_path t)
      | some s => ge_position t s
    find_range_loop t (sizeT t) p0 stop

/-! ## BST well-formedness (used as hypotheses of the general theorems) -/

/-- Every key in the tree satisfies `f`. -/
def allKeysB {V : Type} (f : Int → Bool) : BTree (Int × V) → Bool
  | BTree.nil => true
  | BTree.node l e r => f e.1 && allKeysB f l && allKeysB f r

/-- The binary-search-tree invariant maintained by the map layer. -/
def BSTb {V : Type} : BTree (Int × V) → Bool
  | BTree.nil => true
  | BTree.node l e r =>
      allKeysB (fun x => decide (x < e.1)) l &&
      allKeysB (fun x => decide (e.1 < x)) r && BSTb l && BSTb r

/-- The keys of the map, in in-order sequence. -/
def keysOf {V : Type} (t : BTree (Int × V)) : List Int :=
  (inorder t).map Prod.fst

/-- Does the map contain key `k`? -/
def containsKey {V : Type} (t : BTree (Int × V)) (k : Int) : Bool :=
  (keysOf t).contains k

/-! ## Sequences of public map operations -/

/-- One public mutating operation of the map interface. -/
inductive Op (V : Type) : Type where
  | set (k : Int) (v : V)
  | del (k : Int)
deriving DecidableEq, Repr

/-- Run one operation; if it raises, keep the state it left behind
(Python mutates in place, so a caught exception leaves that state). -/
def applyOp {V : Type} (t : BTree (Int × V)) : Op V → BTree (Int × V)
  | Op.set k v => (setitem t k v).tree
  | Op.del k => (delitem t k).tree

/-- Run a sequence of operations on an initially empty map. -/
def applyOps {V : Type} (ops : List (Op V)) : BTree (Int × V) :=
  ops.foldl applyOp BTree.nil

/-- Build a map by successive `__setitem__` calls. -/
def tmFromList {V : Type} (l : List (Int × V)) : BTree (Int × V) :=
  l.foldl (fun t kv => (setitem t kv.1 kv.2).tree) BTree.nil

/-! ## The `AVLTreeMap` layer

Same tree, but every node carries the `_balance_factor` field of the AVL
`_Node` subclass (initialised to 0 on construction). -/

/-- A node of `AVLTreeMap`: element, `_balance_factor`, children. -/
inductive ABTree (V : Type) : Type where
  | nil : ABTree V
  | node (l : ABTree V) (e : Int × V) (bf : Int) (r : ABTree V) : ABTree V
deriving DecidableEq, Repr

namespace ABTree

def isNilA {V : Type} : ABTree V → Bool
  | nil => true
  | node _ _ _ _ => false

def subtreeAtA {V : Type} : ABTree V → Path → Option (ABTree V)
  | t, [] => some t
  | node l _ _ _, Dir.left :: p => subtreeAtA l p
  | node _ _ _ r, Dir.right :: p => subtreeAtA r p
  | nil, _ :: _ => none

def elemAtA {V : Type} (t : ABTree V) (p : Path) : Option (Int × V) :=
  match subtreeAtA t p with
  | some (node _ e _ _) => some e
  | _ => none

/-- The stored `_balance_factor` of the node at position `p`. -/
def bfAt {V : Type} (t : ABTree V) (p : Path) : Option Int :=
  match subtreeAtA t p with
  | some (node _ _ bf _) => some bf
  | _ => none

def setSubtreeAtA {V : Type} : ABTree V → Path → ABTree V → ABTree V
  | _, [], s => s
  | node l e bf r, Dir.left :: p, s => node (setSubtreeAtA l p s) e bf r
  | node l e bf r, Dir.right :: p, s => node l e bf (setSubtreeAtA r p s)
  | nil, _ :: _, _ => nil

/-- `_subtree_search` on the AVL tree (inherited code, AVL nodes). -/
def subtree_searchA {V : Type} : ABTree V → Int → Path
  | nil, _ => []
  | node l e _ r, k =>
      if k = e.1 then []
      else if k < e.1 then
        if isNilA l then [] else Dir.left :: subtree_searchA l k
      else
        if isNilA r then [] else Dir.right :: subtree_searchA r k

/-- `_add_left` through the AVL `_Node` constructor: the new node's
`_balance_factor` starts at 0. -/
def addLeftAtA {V : Type} (t : ABTree V) (p : Path) (e : Int × V) :
    Option (ABTree V) :=
  match subtreeAtA t p with
  | some (node nil item bf r) =>
      some (setSubtreeAtA t p (node (node nil e 0 nil) item bf r))
  | _ => none

/-- `_add_right` through the AVL `_Node` constructor. -/
def addRightAtA {V : Type} (t : ABTree V) (p : Path) (e : Int × V) :
    Option (ABTree V) :=
  match subtreeAtA t p with
  | some (node l item bf nil) =>
      some (setSubtreeAtA t p (node l item bf (node nil e 0 nil)))
  | _ => none

/-- Overwrite the stored item at `p` (the `p.element()._value = v` branch of
`__setitem__`; the balance factor is untouched). -/
def replaceValueAtA {V : Type} (t : ABTree V) (p : Path) (e : Int × V) :
    Option (ABTree V) :=
  match subtreeAtA t p with
  | some (node l _ bf r) => some (setSubtreeAtA t p (node l e bf r))
  | _ => none

/-- Forget the balance factors: the underlying `TreeMap` tree. -/
def eraseBf {V : Type} : ABTree V → BTree (Int × V)
  | nil => BTree.nil
  | node l e _ r => BTree.node (eraseBf l) e (eraseBf r)

/-- Every stored `_balance_factor` in the tree is 0. -/
def allBf0 {V : Type} : ABTree V → Bool
  | nil => true
  | node l _ bf r => decide (bf = 0) && allBf0 l && allBf0 r

/-- Height in the AVL documentation convention of the source
(`None` child has height 0, a leaf has height 1), computed independently of
the stored balance factors. -/
def heightA {V : Type} : ABTree V → Nat
  | nil => 0
  | node l _ _ r => 1 + max (heightA l) (heightA r)

/-- `LinkedBinaryTree._height2` run on the AVL tree (`height()` method). -/
def height2A {V : Type} : ABTree V → Nat
  | nil => 0
  | node nil _ _ nil => 0
  | node l _ _ r => 1 + max (height2A l) (height2A r)

end ABTree

open ABTree

/-- `AVLTreeMap.update_balance_factor_for_add` (source lines 833–841):
the body of the method is `pass`, so it changes nothing. -/
def update_balance_factor_for_add {V : Type} (t : ABTree V) (_p : Path) :
    ABTree V := t

/-- `AVLTreeMap.update_balance_factor_for_delete` (source lines 843–854):
the body of the method is `pass`, so it changes nothing. -/
def update_balance_factor_for_delete {V : Type} (t : ABTree V) (_p : Path) :
    ABTree V := t

/-- `AVLTreeMap.update_balance_factor_for_rotate` (source lines 856–865):
the body of the method is `pass`, so it changes nothing. -/
def update_balance_factor_for_rotate {V : Type} (t : ABTree V) (_p : Path) :
    ABTree V := t

/-- `AVLTreeMap._isbalanced`: `abs(_balance_factor) <= 1` at position `p`. -/
def isbalancedAt {V : Type} (t : ABTree V) (p : Path) : Bool :=
  match subtreeAtA t p with
  | some (ABTree.node _ _ bf _) => decide (bf.natAbs ≤ 1)
  | _ => true

/-- `AVLTreeMap._tall_child`, reduced to the direction it picks:
left iff `bf + (1 if favorleft else 0) > 0`. -/
def tall_child_dir (bf : Int) (favorleft : Bool) : Dir :=
  if bf + (if favorleft then 1 else 0) > 0 then Dir.left else Dir.right

/-- The rotation core of `AVLTreeMap._rotate` (source lines 886–906), acting
on the subtree rooted at the parent `y`; `d` selects which child of `y` is the
rotated position `x`.  The result is the subtree, now rooted at `x`, that is
relinked into the grandparent's slot.  The two balance-factor assignments are
taken verbatim, in source order (`y` first, then `x` using the new value).
When the selected child is `None` the Python code would raise inside
`_validate`; that configuration is unreachable from the verified entry points
and the tree is returned unchanged. -/
def avl_rotate_sub {V : Type} : ABTree V → Dir → ABTree V
  | ABTree.node (ABTree.node xl xe xbf xr) ye ybf yr, Dir.left =>
      let ybf2 := ybf - 1 - max xbf 0
      let xbf2 := xbf - 1 + min ybf2 0
      ABTree.node xl xe xbf2 (ABTree.node xr ye ybf2 yr)
  | ABTree.node yl ye ybf (ABTree.node xl xe xbf xr), Dir.right =>
      let ybf2 := ybf + 1 - min xbf 0
      let xbf2 := xbf + 1 + max ybf2 0
      ABTree.node (ABTree.node yl ye ybf2 xl) xe xbf2 xr
  | t, _ => t

/-- `TreeMap._restructure` applied at `x = _tall_grandchild(p)` — exactly the
call made by `AVLTreeMap._rebalance` when the node at `p` is unbalanced.
Here `z` is the node at `p`, `y = _tall_child(z)`, and `x` is `y`'s tall
child with the alignment tie-break of `_tall_grandchild`.  Matching
alignments rotate `y` once; opposite alignments rotate `x` twice.  Each
rotation ends with the `update_balance_factor_for_rotate` call of the source
(a `pass`). -/
def restructure_at {V : Type} (t : ABTree V) (p : Path) : ABTree V :=
  match subtreeAtA t p with
  | some (ABTree.node zl ze zbf zr) =>
      let yd := tall_child_dir zbf false
      let ysub := if yd = Dir.left then zl else zr
      match ysub with
      | ABTree.node yl ye ybf yr =>
          let xd := tall_child_dir ybf (yd = Dir.left)
          let zsub := ABTree.node zl ze zbf zr
          if (decide (xd = Dir.right)) = (decide (yd = Dir.right)) then
            update_balance_factor_for_rotate
              (setSubtreeAtA t p (avl_rotate_sub zsub yd)) p
          else
            let ysub2 := avl_rotate_sub (ABTree.node yl ye ybf yr) xd
            let zsub2 :=
              match yd with
              | Dir.left => ABTree.node ysub2 ze zbf zr
              | Dir.right => ABTree.node zl ze zbf ysub2
            update_balance_factor_for_rotate
              (setSubtreeAtA t p (avl_rotate_sub zsub2 yd)) p
      | ABTree.nil => t
  | _ => t

/-- The body of the `AVLTreeMap._rebalance` loop: at the current position,
restructure at the tall grandchild if the node is unbalanced, then move to the
parent.  The `Nat` argument counts the remaining loop iterations; the walk
from `p` to the root takes exactly `p.length + 1` of them. -/
def rebalanceSteps {V : Type} (t : ABTree V) (p : Path) : Nat → ABTree V
  | 0 => t
  | n + 1 =>
      let t2 := if isbalancedAt t p then t else restructure_at t p
      match p with
      | [] => t2
      | _ :: _ => rebalanceSteps t2 p.dropLast n

/-- `AVLTreeMap._rebalance`: walk from position `p` toward the root. -/
def rebalanceFrom {V : Type} (t : ABTree V) (p : Path) : ABTree V :=
  rebalanceSteps t p (p.length + 1)

/-- `AVLTreeMap._rebalance_insert`: run the (stubbed) balance-factor update,
then the rebalancing walk, from the newly added position. -/
def avl_rebalance_insert {V : Type} (t : ABTree V) (p : Path) : ABTree V :=
  rebalanceFrom (update_balance_factor_for_add t p) p

/-- `TreeMap.__setitem__` as inherited by `AVLTreeMap`: the nodes are AVL
nodes (balance factor 0 on creation) and the `_rebalance_insert` hook is the
AVL override.  The key-already-present branch performs the in-place value
overwrite and returns early (only the no-op access hook fires). -/
def avl_setitem {V : Type} (t : ABTree V) (k : Int) (v : V) : ABTree V :=
  match t with
  | ABTree.nil =>
      avl_rebalance_insert (ABTree.node ABTree.nil (k, v) 0 ABTree.nil) []
  | ABTree.node _ _ _ _ =>
      let p := subtree_searchA t k
      match elemAtA t p with
      | some e =>
          if e.1 = k then
            match replaceValueAtA t p (k, v) with
            | some t2 => t2
            | none => t
          else if e.1 < k then
            match addRightAtA t p (k, v) with
            | some t2 => avl_rebalance_insert t2 (p ++ [Dir.right])
            | none => t
          else
            match addLeftAtA t p (k, v) with
            | some t2 => avl_rebalance_insert t2 (p ++ [Dir.left])
            | none => t
      | none => t

/-- Build an AVL map by successive `__setitem__` calls. -/
def avlFromList {V : Type} (l : List (Int × V)) : ABTree V :=
  l.foldl (fun t kv => avl_setitem t kv.1 kv.2) ABTree.nil

/-! ## Specification-side helper notions (not operations of the source) -/

/-- The shape of a tree: structure with elements forgotten.  Two trees with
the same shape have the same node count and the same placement of nodes. -/
def shape {α : Type} : BTree α → BTree Unit
  | BTree.nil => BTree.nil
  | BTree.node l _ r => BTree.node (shape l) () (shape r)

/-- The balance factor of the node at `p` computed independently from the
subtree heights, in the convention stated by the AVL `_Node` docstring
(a `None` subtree has height 0, a leaf has height 1). -/
def trueBfAt {V : Type} (t : ABTree V) (p : Path) : Option Int :=
  match subtreeAtA t p with
  | some (ABTree.node l _ _ r) =>
      some ((heightA l : Int) - (heightA r : Int))
  | _ => none

/-- The suffix of the in-order traversal that starts at position `p`
(the sequence of elements that repeated `after` steps would visit). -/
def inorderFrom {α : Type} : BTree α → Path → List α
  | BTree.nil, _ => []
  | BTree.node _ e r, [] => e :: inorder r
  | BTree.node l e r, Dir.left :: p => inorderFrom l p ++ e :: inorder r
  | BTree.node _ _ r, Dir.right :: p => inorderFrom r p

/-- The continuation condition of the `find_range` loop on a key. -/
def stopCond (stop : Option Int) (x : Int) : Bool :=
  match stop with
  | none => true
  | some s => decide (x < s)

/-- The lower-bound condition of `find_range` on a key (`None` start means
unbounded below). -/
def startCond (start : Option Int) (x : Int) : Bool :=
  match start with
  | none => true
  | some s => decide (s ≤ x)

/-! ## Pointer-level model: `Position` validation (`_validate`)

The path model above cannot express the two failure modes of
`LinkedBinaryTree._validate`: a `Position` whose `_container` is a different
tree instance, and a `Position` whose node has been deleted (tombstoned by the
`node._parent = node` convention).  This model makes nodes an arena indexed by
`Nat` with explicit parent/child links, trees carry an instance identity, and
positions carry the `_container` reference. -/

/-- A `LinkedBinaryTree._Node` in the arena: element, `_parent`, `_left`,
`_right` as indices. -/
structure PNode (V : Type) : Type where
  key : Int
  value : V
  parent : Option Nat
  left : Option Nat
  right : Option Nat
deriving DecidableEq, Repr

/-- The arena of all allocated nodes (indices are object identities). -/
structure Store (V : Type) : Type where
  nodes : List (PNode V)
deriving DecidableEq, Repr

/-- A `TreeMap` instance: its object identity and its `_root` pointer. -/
structure AMap : Type where
  tid : Nat
  root : Option Nat
deriving DecidableEq, Repr

/-- A `Position`: the `_container` it claims to belong to (by identity) and
its `_node`. -/
structure APos : Type where
  container : Nat
  node : Nat
deriving DecidableEq, Repr

def Store.get? {V : Type} (s : Store V) (i : Nat) : Option (PNode V) :=
  s.nodes.get? i

def Store.setNode {V : Type} (s : Store V) (i : Nat) (n : PNode V) : Store V :=
  ⟨s.nodes.set i n⟩

/-- `LinkedBinaryTree._validate` (source lines 96–104): the `isinstance`
check always passes here (an `APos` is a proper `Position`); then the
ownership check (`p._container is not self`), then the tombstone check
(`p._node._parent is p._node`). -/
def validate {V : Type} (s : Store V) (m : AMap) (p : APos) :
    Except PyErr Nat :=
  if p.container ≠ m.tid then
    Except.error (PyErr.valueError "p does not belong to this container")
  else
    match s.get? p.node with
    | none => Except.error (PyErr.valueError "p is no longer valid")
    | some n =>
        if n.parent = some p.node then
          Except.error (PyErr.valueError "p is no longer valid")
        else Except.ok p.node

/-- Result of a pointer-level operation: the store and map are mutated in
place, so both outcomes carry them. -/
inductive PRes (V α : Type) : Type where
  | ok (s : Store V) (m : AMap) (a : α)
  | err (e : PyErr) (s : Store V) (m : AMap)
deriving DecidableEq, Repr

/-- `LinkedBinaryTree.parent`: validate, then read the parent link. -/
def pparent {V : Type} (s : Store V) (m : AMap) (p : APos) :
    PRes V (Option APos) :=
  match validate s m p with
  | Except.error e => PRes.err e s m
  | Except.ok i =>
      match s.get? i with
      | some n => PRes.ok s m (n.parent.map (fun j => ⟨m.tid, j⟩))
      | none => PRes.err (PyErr.valueError "p is no longer valid") s m

/-- `LinkedBinaryTree.left`: validate, then read the left link. -/
def pleft {V : Type} (s : Store V) (m : AMap) (p : APos) :
    PRes V (Option APos) :=
  match validate s m p with
  | Except.error e => PRes.err e s m
  | Except.ok i =>
      match s.get? i with
      | some n => PRes.ok s m (n.left.map (fun j => ⟨m.tid, j⟩))
      | none => PRes.err (PyErr.valueError "p is no longer valid") s m

/-- `LinkedBinaryTree.right`: validate, then read the right link. -/
def pright {V : Type} (s : Store V) (m : AMap) (p : APos) :
    PRes V (Option APos) :=
  match validate s m p with
  | Except.error e => PRes.err e s m
  | Except.ok i =>
      match s.get? i with
      | some n => PRes.ok s m (n.right.map (fun j => ⟨m.tid, j⟩))
      | none => PRes.err (PyErr.valueError "p is no longer valid") s m

/-- The walk of `TreeMap._subtree_last_position`, with fuel bounded by the
arena size. -/
def subtree_last_idx {V : Type} (s : Store V) : Nat → Nat → Nat
  | 0, i => i
  | fuel + 1, i =>
      match s.get? i with
      | some n =>
          match n.right with
          | some j => subtree_last_idx s fuel j
          | none => i
      | none => i

/-- `LinkedBinaryTree._delete` at the pointer level (source lines 265–287),
with the same indentation slip as the path model: when the node is the root
the code assigns `self._root = child` and then raises `UnboundLocalError` on
the unbound `parent`, leaving the store partially mutated. -/
def p_lbt_delete {V : Type} (s : Store V) (m : AMap) (p : APos) :
    PRes V (Int × V) :=
  match validate s m p with
  | Except.error e => PRes.err e s m
  | Except.ok i =>
      match s.get? i with
      | none => PRes.err (PyErr.valueError "p is no longer valid") s m
      | some n =>
          if n.left.isSome && n.right.isSome then
            PRes.err (PyErr.valueError "Position has two children") s m
          else
            let child : Option Nat := if n.left.isSome then n.left else n.right
            let s1 :=
              match child with
              | some c =>
                  match s.get? c with
                  | some cn => s.setNode c { cn with parent := n.parent }
                  | none => s
              | none => s
            match n.parent with
            | none =>
                PRes.err PyErr.unboundLocalError s1 { m with root := child }
            | some pi =>
                match s1.get? pi with
                | none => PRes.err PyErr.unboundLocalError s1 m
                | some pn =>
                    let s2 :=
                      if pn.left = some i then
                        s1.setNode pi { pn with left := child }
                      else s1.setNode pi { pn with right := child }
                    let s3 :=
                      match s2.get? i with
                      | some n2 => s2.setNode i { n2 with parent := some i }
                      | none => s2
                    PRes.ok s3 m (n.key, n.value)

/-- `TreeMap.delete` at the pointer level (source lines 536–546): validate
first; a node with two children is overwritten with the last position of its
left subtree and that position is deleted instead; `_rebalance_delete` is a
no-op. -/
def p_tm_delete {V : Type} (s : Store V) (m : AMap) (p : APos) : PRes V Unit :=
  match validate s m p with
  | Except.error e => PRes.err e s m
  | Except.ok i =>
      match s.get? i with
      | none => PRes.err (PyErr.valueError "p is no longer valid") s m
      | some n =>
          match n.left, n.right with
          | some li, some _ =>
              let ri := subtree_last_idx s s.nodes.length li
              match s.get? ri with
              | none => PRes.err (PyErr.valueError "p is no longer valid") s m
              | some rn =>
                  let s1 := s.setNode i
                    { n with key := rn.key, value := rn.value }
                  match p_lbt_delete s1 m ⟨p.container, ri⟩ with
                  | PRes.ok s2 m2 _ => PRes.ok s2 m2 ()
                  | PRes.err e s2 m2 => PRes.err e s2 m2
          | _, _ =>
              match p_lbt_delete s m p with
              | PRes.ok s2 m2 _ => PRes.ok s2 m2 ()
              | PRes.err e s2 m2 => PRes.err e s2 m2

/-! ## Concrete example trees used by several claims -/

/-- The AVL map after inserting keys 0,1 (values irrelevant). -/
def avl01 : ABTree Nat := avlFromList [(0, 0), (1, 0)]

/-- The AVL map after inserting keys 0,1,2. -/
def avl012 : ABTree Nat := avlFromList [(0, 0), (1, 0), (2, 0)]

/-- The AVL map after inserting keys 0,1,2,3,4 in ascending order
(Scenario B of the specification). -/
def avl01234 : ABTree Nat := avlFromList [(0, 0), (1, 0), (2, 0), (3, 0), (4, 0)]

/-- The plain `TreeMap` of Scenario A: keys 10,5,15,2,7,12,18 inserted in
that order. -/
def tmScenarioA : BTree (Int × Nat) :=
  tmFromList [(10, 0), (5, 0), (15, 0), (2, 0), (7, 0), (12, 0), (18, 0)]

/-- The `TreeMap` of Scenario E: keys 2,5,7,10,12,18. -/
def tmScenarioE : BTree (Int × Nat) :=
  tmFromList [(2, 0), (5, 0), (7, 0), (10, 0), (12, 0), (18, 0)]

/-- A concrete arena holding the nodes of two one-node maps. -/
def storeW : Store Nat := ⟨[⟨1, 10, none, none, none⟩, ⟨2, 20, none, none, none⟩]⟩

/-- A second map instance (tid 1) owning node 1. -/
def mapB : AMap := ⟨1, some 1⟩

/-- A Position obtained from the first map instance (tid 0), node 0. -/
def posFromA : APos := ⟨0, 0⟩

/-! # Theorems -/

/-! ## C1 — the AVL balance-factor invariant fails on the code

The three `update_balance_factor_for_*` methods have body `pass`, so stored
balance factors never change from their initial 0 and `_rebalance` never sees
an imbalance.  After inserting 0,1,2 the tree is a right chain whose root has
stored factor 0 but true height difference 0 − 2 = −2. -/

/-- C1: after the public insertions of keys 0,1,2 into an empty `AVLTreeMap`,
the root's stored `_balance_factor` is 0 while the balance factor computed
independently from subtree heights (missing subtree height 0, leaf height 1)
is −2.  The stored factor does not equal `height(left) − height(right)`, so
the claimed invariant does not hold after each completed operation. -/
theorem c1_balance_factor_invariant_fails :
    bfAt avl012 [] = some 0 ∧ trueBfAt avl012 [] = some (-2) := by
  constructor <;> rfl

/-! ## C2 — the insertion balance-factor walk does nothing

`update_balance_factor_for_add` (the routine the claim describes) has body
`pass`: it modifies no ancestor.  After inserting 0 then 1, the walk described
by the claim would set the root's factor to −1; the code leaves it at 0. -/

/-- C2: inserting key 1 into the `AVLTreeMap` holding only key 0 leaves the
root's stored `_balance_factor` at 0, although the structural change happened
in the root's right subtree (the true height difference is −1); moreover the
balance-factor maintenance routine itself returns the tree unchanged on this
input.  The claimed ±1 update walk does not happen. -/
theorem c2_update_walk_does_nothing :
    update_balance_factor_for_add avl01 [Dir.right] = avl01 ∧
    bfAt avl01 [] = some 0 ∧ trueBfAt avl01 [] = some (-1) := by
  refine ⟨rfl, rfl, rfl⟩

/-! ## C3 — the primitive `_delete` crashes on the root

In `LinkedBinaryTree._delete` the statement `if node is parent._left:` is
indented outside the `else:` branch that assigns `parent = node._parent`, so
deleting the root (which has no parent) raises `UnboundLocalError` after
having already reassigned `self._root = child` — contradicting the method's
own docstring, which promises deletion of any node with at most one child.
Deleting a non-root node with at most one child works as documented. -/

/-- C3: `_delete` at the root of a one-node tree raises `UnboundLocalError`
(leaving the root reassigned to the spliced child) instead of completing, and
likewise at a root with one child; a non-root node with one child is spliced
correctly, and a node with two children raises `ValueError` as documented. -/
theorem c3_delete_root_unbound_local :
    lbt_delete (BTree.node BTree.nil (3 : Nat) BTree.nil) [] =
      DRes.err PyErr.unboundLocalError BTree.nil ∧
    lbt_delete
      (BTree.node (BTree.node BTree.nil 1 BTree.nil) (3 : Nat) BTree.nil) [] =
      DRes.err PyErr.unboundLocalError (BTree.node BTree.nil 1 BTree.nil) ∧
    lbt_delete
      (BTree.node (BTree.node BTree.nil 1 BTree.nil) (3 : Nat) BTree.nil)
      [Dir.left] =
      DRes.ok (BTree.node BTree.nil 3 BTree.nil) 1 ∧
    lbt_delete
      (BTree.node (BTree.node BTree.nil 1 BTree.nil) (3 : Nat)
        (BTree.node BTree.nil 5 BTree.nil)) [] =
      DRes.err (PyErr.valueError "Position has two children")
        (BTree.node (BTree.node BTree.nil 1 BTree.nil) 3
          (BTree.node BTree.nil 5 BTree.nil)) := by
  refine ⟨rfl, rfl, rfl, rfl⟩

/-! ## C4 — Scenario B fails: the "AVL" tree degenerates to a chain

Because the balance-factor maintenance is a `pass`, inserting 0,1,2,3,4 in
ascending order produces a right chain: `height()` returns 4 > 3. -/

/-- C4: after inserting keys 0,1,2,3,4 in ascending order into an empty
`AVLTreeMap`, `height()` (the `_height2` recursion of the source) returns 4,
which exceeds the claimed bound ⌈log2(6)⌉ = 3; indeed the root's true height
difference is −4, so the tree is not balanced at all. -/
theorem c4_scenario_b_height_exceeds_bound :
    height2A avl01234 = 4 ∧ ¬ height2A avl01234 ≤ 3 ∧
    trueBfAt avl01234 [] = some (-4) := by
  refine ⟨rfl, by decide, rfl⟩

/-! ## C5 — Scenario A: `before`/`after` behave as claimed, `find_ge(8)` does
not return key 12

With keys {2,5,7,10,12,15,18} present, the least key ≥ 8 is 10, and the code
correctly returns the pair with key 10.  The claim (and the spec's Scenario A)
expect key 12, which is wrong. -/

/-- C5 counterexample: on the Scenario A map, `find_ge(8)` returns the pair
with key 10, not a pair with key 12 — the claim as stated is false. -/
theorem c5_find_ge_not_twelve :
    (find_ge tmScenarioA 8).map Prod.fst = some 10 ∧
    (find_ge tmScenarioA 8).map Prod.fst ≠ some 12 := by
  refine ⟨rfl, by decide⟩

/-- C5 amended: after inserting keys 10,5,15,2,7,12,18 in that order into an
empty `TreeMap`, `before` at the position holding key 10 returns the position
of key 7, `after` there returns the position of key 12, and `find_ge(8)`
returns the pair whose key is 10. -/
theorem c5_scenario_a_amended :
    ((before tmScenarioA (subtree_search tmScenarioA 10)).bind
        (elemAt tmScenarioA)).map Prod.fst = some 7 ∧
    ((after tmScenarioA (subtree_search tmScenarioA 10)).bind
        (elemAt tmScenarioA)).map Prod.fst = some 12 ∧
    (elemAt tmScenarioA (subtree_search tmScenarioA 10)).map Prod.fst =
      some 10 ∧
    (find_ge tmScenarioA 8).map Prod.fst = some 10 := by
  refine ⟨rfl, rfl, rfl, rfl⟩

/-! ## C9 — Position validation

`_validate` checks ownership (`p._container is not self`) and the tombstone
convention (`p._node._parent is p._node`) before any operation proceeds; on
failure a `ValueError` escapes before any mutation (the store and the map are
returned exactly as given). -/

/-- C9: if the Position belongs to a different tree instance, or its node is
tombstoned (self-referencing parent link), then `delete` — and likewise the
other Position-taking operations `parent`, `left`, `right` — raises
`ValueError` and leaves the node store and the map completely unchanged. -/
theorem c9_position_validation {V : Type} (s : Store V) (m : AMap) (p : APos)
    (h : p.container ≠ m.tid ∨
      ∃ n, s.get? p.node = some n ∧ n.parent = some p.node) :
    (∃ e1, p_tm_delete s m p = PRes.err (PyErr.valueError e1) s m) ∧
    (∃ e2, pparent s m p = PRes.err (PyErr.valueError e2) s m) ∧
    (∃ e3, pleft s m p = PRes.err (PyErr.valueError e3) s m) ∧
    (∃ e4, pright s m p = PRes.err (PyErr.valueError e4) s m) := by
  have hv : ∃ msg, validate s m p = Except.error (PyErr.valueError msg) := by
    unfold validate
    rcases h with h | ⟨n, hn, hp⟩
    · refine ⟨"p does not belong to this container", ?_⟩
      simp [h]
    · by_cases hc : p.container = m.tid
      · refine ⟨"p is no longer valid", ?_⟩
        simp [hc, hn, hp]
      · refine ⟨"p does not belong to this container", ?_⟩
        simp [hc]
  obtain ⟨msg, hv⟩ := hv
  refine ⟨⟨msg, ?_⟩, ⟨msg, ?_⟩, ⟨msg, ?_⟩, ⟨msg, ?_⟩⟩
  · unfold p_tm_delete
    rw [hv]
  · unfold pparent
    rw [hv]
  · unfold pleft
    rw [hv]
  · unfold pright
    rw [hv]

/-- C9 witness: calling `delete` (and `parent`/`left`/`right`) on map
instance `mapB` with a Position obtained from a different map instance
raises `ValueError` and mutates nothing. -/
theorem c9_position_validation_witness :
    posFromA.container ≠ mapB.tid ∧
    ((∃ e1, p_tm_delete storeW mapB posFromA =
        PRes.err (PyErr.valueError e1) storeW mapB) ∧
     (∃ e2, pparent storeW mapB posFromA =
        PRes.err (PyErr.valueError e2) storeW mapB) ∧
     (∃ e3, pleft storeW mapB posFromA =
        PRes.err (PyErr.valueError e3) storeW mapB) ∧
     (∃ e4, pright storeW mapB posFromA =
        PRes.err (PyErr.valueError e4) storeW mapB)) :=
  ⟨by decide, c9_position_validation storeW mapB posFromA (Or.inl (by decide))⟩

/-! ## C10 — the AVL layer degenerates to the plain `TreeMap`

Since the balance-factor update routines are `pass` stubs and new nodes start
with factor 0, every stored factor stays 0, `_isbalanced` always answers yes,
and `_rebalance` never restructures.  Hence the AVL map builds exactly the
tree the plain `TreeMap` builds. -/

theorem allBf0_subtree {V : Type} (t : ABTree V) (p : Path) (u : ABTree V)
    (h : allBf0 t = true) (hs : subtreeAtA t p = some u) : allBf0 u = true := by
  induction p generalizing t with
  | nil =>
      simp only [subtreeAtA, Option.some.injEq] at hs
      exact hs ▸ h
  | cons d q ih =>
      cases t with
      | nil => simp [subtreeAtA] at hs
      | node l e bf r =>
          simp only [allBf0, Bool.and_eq_true] at h
          cases d with
          | left => exact ih l h.1.2 hs
          | right => exact ih r h.2 hs

theorem isbalanced_of_allBf0 {V : Type} (t : ABTree V) (p : Path)
    (h : allBf0 t = true) : isbalancedAt t p = true := by
  unfold isbalancedAt
  cases hs : subtreeAtA t p with
  | none => rfl
  | some u =>
      cases u with
      | nil => rfl
      | node l e bf r =>
          have hu := allBf0_subtree t p _ h hs
          simp only [allBf0, Bool.and_eq_true, decide_eq_true_eq] at hu
          simp [hu.1.1]

theorem rebalanceSteps_id {V : Type} (n : Nat) (t : ABTree V) (p : Path)
    (h : allBf0 t = true) : rebalanceSteps t p n = t := by
  induction n generalizing p with
  | zero => rfl
  | succ n ih =>
      unfold rebalanceSteps
      simp only [isbalanced_of_allBf0 t p h, if_true]
      cases p with
      | nil => rfl
      | cons d q => exact ih ((d :: q).dropLast)

theorem rebalanceFrom_id {V : Type} (t : ABTree V) (p : Path)
    (h : allBf0 t = true) : rebalanceFrom t p = t :=
  rebalanceSteps_id _ t p h

theorem avl_rebalance_insert_id {V : Type} (t : ABTree V) (p : Path)
    (h : allBf0 t = true) : avl_rebalance_insert t p = t :=
  rebalanceFrom_id t p h

theorem isNilA_erase {V : Type} (t : ABTree V) :
    isNil (eraseBf t) = isNilA t := by
  cases t <;> rfl

theorem subtreeAtA_erase {V : Type} (t : ABTree V) (p : Path) :
    subtreeAt (eraseBf t) p = (subtreeAtA t p).map eraseBf := by
  induction p generalizing t with
  | nil => cases t <;> rfl
  | cons d q ih =>
      cases t with
      | nil => cases d <;> rfl
      | node l e bf r => cases d with
          | left => exact ih l
          | right => exact ih r

theorem elemAtA_erase {V : Type} (t : ABTree V) (p : Path) :
    elemAt (eraseBf t) p = elemAtA t p := by
  unfold elemAt elemAtA
  rw [subtreeAtA_erase]
  cases subtreeAtA t p with
  | none => rfl
  | some u => cases u <;> rfl

theorem subtree_searchA_erase {V : Type} (t : ABTree V) (k : Int) :
    subtree_search (eraseBf t) k = subtree_searchA t k := by
  induction t with
  | nil => rfl
  | node l e bf r ihl ihr =>
      simp only [subtree_search, subtree_searchA, eraseBf, isNilA_erase,
        ihl, ihr]

theorem setSubtreeAtA_erase {V : Type} (t : ABTree V) (p : Path)
    (s : ABTree V) :
    eraseBf (setSubtreeAtA t p s) = setSubtreeAt (eraseBf t) p (eraseBf s) := by
  induction p generalizing t with
  | nil => cases t <;> rfl
  | cons d q ih =>
      cases t with
      | nil => cases d <;> rfl
      | node l e bf r => cases d with
          | left => simp only [setSubtreeAtA, setSubtreeAt, eraseBf, ih l]
          | right => simp only [setSubtreeAtA, setSubtreeAt, eraseBf, ih r]

theorem allBf0_setSubtree {V : Type} (t : ABTree V) (p : Path) (s : ABTree V)
    (ht : allBf0 t = true) (hs : allBf0 s = true) :
    allBf0 (setSubtreeAtA t p s) = true := by
  induction p generalizing t with
  | nil => cases t <;> exact hs
  | cons d q ih =>
      cases t with
      | nil => exact ht
      | node l e bf r =>
          simp only [allBf0, Bool.and_eq_true] at ht
          cases d with
          | left =>
              simp only [setSubtreeAtA, allBf0, Bool.and_eq_true]
              exact ⟨⟨ht.1.1, ih l ht.1.2⟩, ht.2⟩
          | right =>
              simp only [setSubtreeAtA, allBf0, Bool.and_eq_true]
              exact ⟨⟨ht.1.1, ht.1.2⟩, ih r ht.2⟩

theorem addRightAtA_erase {V : Type} (t : ABTree V) (p : Path) (e : Int × V) :
    addRightAt (eraseBf t) p e = (addRightAtA t p e).map eraseBf := by
  unfold addRightAt addRightAtA
  rw [subtreeAtA_erase]
  cases hs : subtreeAtA t p with
  | none => rfl
  | some u =>
      cases u with
      | nil => rfl
      | node l item bf r =>
          cases r with
          | node _ _ _ _ => rfl
          | nil =>
              simp only [eraseBf, Option.map_some, Option.map]
              rw [setSubtreeAtA_erase]
              rfl

theorem addLeftAtA_erase {V : Type} (t : ABTree V) (p : Path) (e : Int × V) :
    addLeftAt (eraseBf t) p e = (addLeftAtA t p e).map eraseBf := by
  unfold addLeftAt addLeftAtA
  rw [subtreeAtA_erase]
  cases hs : subtreeAtA t p with
  | none => rfl
  | some u =>
      cases u with
      | nil => rfl
      | node l item bf r =>
          cases l with
          | node _ _ _ _ => rfl
          | nil =>
              simp only [eraseBf, Option.map_some, Option.map]
              rw [setSubtreeAtA_erase]
              rfl

theorem replaceValueAtA_erase {V : Type} (t : ABTree V) (p : Path)
    (e : Int × V) :
    replaceAt (eraseBf t) p e = (replaceValueAtA t p e).map eraseBf := by
  unfold replaceAt replaceValueAtA
  rw [subtreeAtA_erase]
  cases hs : subtreeAtA t p with
  | none => rfl
  | some u =>
      cases u with
      | nil => rfl
      | node l item bf r =>
          simp only [eraseBf, Option.map_some, Option.map]
          rw [setSubtreeAtA_erase]
          rfl

theorem allBf0_addRight {V : Type} (t : ABTree V) (p : Path) (e : Int × V)
    (t2 : ABTree V) (ht : allBf0 t = true)
    (h : addRightAtA t p e = some t2) : allBf0 t2 = true := by
  unfold addRightAtA at h
  cases hs : subtreeAtA t p with
  | none => rw [hs] at h; exact absurd h (by simp)
  | some u =>
      rw [hs] at h
      cases u with
      | nil => exact absurd h (by simp)
      | node l item bf r =>
          cases r with
          | node _ _ _ _ => exact absurd h (by simp)
          | nil =>
              simp only [Option.some.injEq] at h
              subst h
              have hu := allBf0_subtree t p _ ht hs
              simp only [allBf0, Bool.and_eq_true] at hu
              refine allBf0_setSubtree t p _ ht ?_
              simp only [allBf0, Bool.and_eq_true]
              exact ⟨⟨hu.1.1, hu.1.2⟩, by simp [allBf0]⟩

theorem allBf0_addLeft {V : Type} (t : ABTree V) (p : Path) (e : Int × V)
    (t2 : ABTree V) (ht : allBf0 t = true)
    (h : addLeftAtA t p e = some t2) : allBf0 t2 = true := by
  unfold addLeftAtA at h
  cases hs : subtreeAtA t p with
  | none => rw [hs] at h; exact absurd h (by simp)
  | some u =>
      rw [hs] at h
      cases u with
      | nil => exact absurd h (by simp)
      | node l item bf r =>
          cases l with
          | node _ _ _ _ => exact absurd h (by simp)
          | nil =>
              simp only [Option.some.injEq] at h
              subst h
              have hu := allBf0_subtree t p _ ht hs
              simp only [allBf0, Bool.and_eq_true] at hu
              refine allBf0_setSubtree t p _ ht ?_
              simp only [allBf0, Bool.and_eq_true]
              exact ⟨⟨hu.1.1, by simp [allBf0]⟩, hu.2⟩

theorem allBf0_replaceValue {V : Type} (t : ABTree V) (p : Path)
    (e : Int × V) (t2 : ABTree V) (ht : allBf0 t = true)
    (h : replaceValueAtA t p e = some t2) : allBf0 t2 = true := by
  unfold replaceValueAtA at h
  cases hs : subtreeAtA t p with
  | none => rw [hs] at h; exact absurd h (by simp)
  | some u =>
      rw [hs] at h
      cases u with
      | nil => exact absurd h (by simp)
      | node l item bf r =>
          simp only [Option.some.injEq] at h
          subst h
          have hu := allBf0_subtree t p _ ht hs
          simp only [allBf0, Bool.and_eq_true] at hu
          refine allBf0_setSubtree t p _ ht ?_
          simp only [allBf0, Bool.and_eq_true]
          exact ⟨⟨hu.1.1, hu.1.2⟩, hu.2⟩

/-- Dispatch of the non-empty branch of `TreeMap.__setitem__`. -/
theorem setitem_not_nil {V : Type} (t : BTree (Int × V))
    (hne : isNil t = false) (k : Int) (v : V) :
    setitem t k v =
      (match elemAt t (subtree_search t k) with
       | some e =>
           if e.1 = k then
             match replaceAt t (subtree_search t k) (k, v) with
             | some t2 => Res.ok t2
             | none => Res.err (PyErr.valueError "p is no longer valid") t
           else if e.1 < k then
             match addRightAt t (subtree_search t k) (k, v) with
             | some t2 => Res.ok t2
             | none => Res.err (PyErr.valueError "Right child exists") t
           else
             match addLeftAt t (subtree_search t k) (k, v) with
             | some t2 => Res.ok t2
             | none => Res.err (PyErr.valueError "Left child exists") t
       | none => Res.err (PyErr.valueError "p is no longer valid") t) := by
  cases t with
  | nil => simp [isNil] at hne
  | node l e r => rfl

/-- Dispatch of the non-empty branch of the inherited `__setitem__` on the
AVL map. -/
theorem avl_setitem_not_nil {V : Type} (t : ABTree V)
    (hne : isNilA t = false) (k : Int) (v : V) :
    avl_setitem t k v =
      (match elemAtA t (subtree_searchA t k) with
       | some e =>
           if e.1 = k then
             match replaceValueAtA t (subtree_searchA t k) (k, v) with
             | some t2 => t2
             | none => t
           else if e.1 < k then
             match addRightAtA t (subtree_searchA t k) (k, v) with
             | some t2 =>
                 avl_rebalance_insert t2 (subtree_searchA t k ++ [Dir.right])
             | none => t
           else
             match addLeftAtA t (subtree_searchA t k) (k, v) with
             | some t2 =>
                 avl_rebalance_insert t2 (subtree_searchA t k ++ [Dir.left])
             | none => t
       | none => t) := by
  cases t with
  | nil => simp [ABTree.isNilA] at hne
  | node l e bf r => rfl

theorem avl_setitem_erase {V : Type} (t : ABTree V) (k : Int) (v : V)
    (h : allBf0 t = true) :
    eraseBf (avl_setitem t k v) = (setitem (eraseBf t) k v).tree ∧
    allBf0 (avl_setitem t k v) = true := by
  cases hn : isNilA t with
  | true =>
      cases t with
      | node _ _ _ _ => simp [ABTree.isNilA] at hn
      | nil =>
          have hid : avl_setitem (ABTree.nil (V := V)) k v =
              ABTree.node ABTree.nil (k, v) 0 ABTree.nil := by
            show avl_rebalance_insert
              (ABTree.node ABTree.nil (k, v) 0 ABTree.nil) [] = _
            exact avl_rebalance_insert_id _ _ (by simp [allBf0])
          rw [hid]
          exact ⟨rfl, by simp [allBf0]⟩
  | false =>
      rw [avl_setitem_not_nil t hn k v,
        setitem_not_nil (eraseBf t) (by rw [isNilA_erase]; exact hn) k v,
        subtree_searchA_erase, elemAtA_erase]
      cases he : elemAtA t (subtree_searchA t k) with
      | none => exact ⟨rfl, h⟩
      | some e2 =>
          by_cases h1 : e2.1 = k
          · simp only [h1, if_pos rfl]
            rw [replaceValueAtA_erase]
            cases hr : replaceValueAtA t (subtree_searchA t k) (k, v) with
            | none => exact ⟨rfl, h⟩
            | some t2 => exact ⟨rfl, allBf0_replaceValue t _ _ t2 h hr⟩
          · by_cases h2 : e2.1 < k
            · simp only [if_neg h1, if_pos h2]
              rw [addRightAtA_erase]
              cases hr : addRightAtA t (subtree_searchA t k) (k, v) with
              | none => exact ⟨rfl, h⟩
              | some t2 =>
                  have h2b := allBf0_addRight t _ _ t2 h hr
                  simp only [Option.map_some]
                  rw [avl_rebalance_insert_id t2 _ h2b]
                  exact ⟨rfl, h2b⟩
            · simp only [if_neg h1, if_neg h2]
              rw [addLeftAtA_erase]
              cases hr : addLeftAtA t (subtree_searchA t k) (k, v) with
              | none => exact ⟨rfl, h⟩
              | some t2 =>
                  have h2b := allBf0_addLeft t _ _ t2 h hr
                  simp only [Option.map_some]
                  rw [avl_rebalance_insert_id t2 _ h2b]
                  exact ⟨rfl, h2b⟩

theorem avl_foldl_erase {V : Type} (ks : List (Int × V)) (t : ABTree V)
    (h : allBf0 t = true) :
    eraseBf (ks.foldl (fun t2 kv => avl_setitem t2 kv.1 kv.2) t) =
      ks.foldl (fun t2 kv => (setitem t2 kv.1 kv.2).tree) (eraseBf t) ∧
    allBf0 (ks.foldl (fun t2 kv => avl_setitem t2 kv.1 kv.2) t) = true := by
  induction ks generalizing t with
  | nil => exact ⟨rfl, h⟩
  | cons kv rest ih =>
      simp only [List.foldl_cons]
      have hstep := avl_setitem_erase t kv.1 kv.2 h
      have := ih (avl_setitem t kv.1 kv.2) hstep.2
      rw [hstep.1] at this
      exact this

/-- C10: for every sequence of insertions of distinct keys, the `AVLTreeMap`
builds exactly the tree (same shape, same key/value placement) that the plain
`TreeMap` builds on the same sequence; every stored `_balance_factor` is 0
afterwards; `_isbalanced` holds at every position, so the restructure branch
of `_rebalance` is never taken and the rebalancing walk is the identity. -/
theorem c10_avl_degenerates_to_treemap {V : Type} (ks : List (Int × V))
    (hnd : (ks.map Prod.fst).Nodup) :
    eraseBf (avlFromList ks) = tmFromList ks ∧
    allBf0 (avlFromList ks) = true ∧
    (∀ p, isbalancedAt (avlFromList ks) p = true) ∧
    (∀ p, rebalanceFrom (avlFromList ks) p = avlFromList ks) := by
  have hmain := avl_foldl_erase ks ABTree.nil rfl
  refine ⟨hmain.1, hmain.2, fun p => isbalanced_of_allBf0 _ p hmain.2,
    fun p => rebalanceFrom_id _ p hmain.2⟩

/-- C10 witness: the concrete insertion sequence 1,2,0 (distinct keys). -/
theorem c10_avl_degenerates_to_treemap_witness :
    (([(1, 0), (2, 0), (0, 0)].map Prod.fst : List Int).Nodup) ∧
    (eraseBf (avlFromList [((1 : Int), (0 : Nat)), (2, 0), (0, 0)]) =
      tmFromList [(1, 0), (2, 0), (0, 0)] ∧
     allBf0 (avlFromList [((1 : Int), (0 : Nat)), (2, 0), (0, 0)]) = true ∧
     (∀ p, isbalancedAt (avlFromList [((1 : Int), (0 : Nat)), (2, 0), (0, 0)])
        p = true) ∧
     (∀ p, rebalanceFrom (avlFromList [((1 : Int), (0 : Nat)), (2, 0), (0, 0)])
        p = avlFromList [(1, 0), (2, 0), (0, 0)])) :=
  ⟨by decide, c10_avl_degenerates_to_treemap [(1, 0), (2, 0), (0, 0)]
    (by decide)⟩

/-! ## Basic facts about the search, keys and path primitives -/

theorem containsKey_iff {V : Type} (t : BTree (Int × V)) (k : Int) :
    containsKey t k = true ↔ k ∈ keysOf t :=
  List.elem_iff

theorem keysOf_node {V : Type} (l : BTree (Int × V)) (e : Int × V)
    (r : BTree (Int × V)) :
    keysOf (BTree.node l e r) = keysOf l ++ e.1 :: keysOf r := by
  simp [keysOf, inorder]

theorem allKeysB_iff {V : Type} (f : Int → Bool) (t : BTree (Int × V)) :
    allKeysB f t = true ↔ ∀ x ∈ inorder t, f x.1 = true := by
  induction t with
  | nil => simp [allKeysB, inorder]
  | node l e r ihl ihr =>
      simp only [allKeysB, Bool.and_eq_true, ihl, ihr, inorder,
        List.mem_append, List.mem_cons]
      constructor
      · rintro ⟨⟨hf, hl⟩, hr⟩ x (hx | rfl | hx)
        · exact hl x hx
        · exact hf
        · exact hr x hx
      · intro hall
        exact ⟨⟨hall e (Or.inr (Or.inl rfl)),
          fun x hx => hall x (Or.inl hx)⟩,
          fun x hx => hall x (Or.inr (Or.inr hx))⟩

theorem BSTb_node {V : Type} (l : BTree (Int × V)) (e : Int × V)
    (r : BTree (Int × V)) :
    BSTb (BTree.node l e r) = true ↔
      allKeysB (fun x => decide (x < e.1)) l = true ∧
      allKeysB (fun x => decide (e.1 < x)) r = true ∧
      BSTb l = true ∧ BSTb r = true := by
  simp [BSTb, Bool.and_eq_true, and_assoc]

theorem subtreeAt_consL {α : Type} (l : BTree α) (e : α) (r : BTree α)
    (q : Path) :
    subtreeAt (BTree.node l e r) (Dir.left :: q) = subtreeAt l q := rfl

theorem subtreeAt_consR {α : Type} (l : BTree α) (e : α) (r : BTree α)
    (q : Path) :
    subtreeAt (BTree.node l e r) (Dir.right :: q) = subtreeAt r q := rfl

theorem elemAt_consL {α : Type} (l : BTree α) (e : α) (r : BTree α)
    (q : Path) :
    elemAt (BTree.node l e r) (Dir.left :: q) = elemAt l q := rfl

theorem elemAt_consR {α : Type} (l : BTree α) (e : α) (r : BTree α)
    (q : Path) :
    elemAt (BTree.node l e r) (Dir.right :: q) = elemAt r q := rfl

theorem replaceAt_consL {α : Type} (l : BTree α) (e : α) (r : BTree α)
    (q : Path) (x : α) :
    replaceAt (BTree.node l e r) (Dir.left :: q) x =
      (replaceAt l q x).map (fun l2 => BTree.node l2 e r) := by
  unfold replaceAt
  rw [subtreeAt_consL]
  cases subtreeAt l q with
  | none => rfl
  | some u => cases u <;> rfl

theorem replaceAt_consR {α : Type} (l : BTree α) (e : α) (r : BTree α)
    (q : Path) (x : α) :
    replaceAt (BTree.node l e r) (Dir.right :: q) x =
      (replaceAt r q x).map (fun r2 => BTree.node l e r2) := by
  unfold replaceAt
  rw [subtreeAt_consR]
  cases subtreeAt r q with
  | none => rfl
  | some u => cases u <;> rfl

/-- When the key is present, `_subtree_search` ends at a node holding exactly
that key (under the BST invariant). -/
theorem search_finds_key {V : Type} (t : BTree (Int × V)) (k : Int)
    (hb : BSTb t = true) (hc : containsKey t k = true) :
    ∃ v0, elemAt t (subtree_search t k) = some (k, v0) := by
  induction t with
  | nil => simp [containsKey, keysOf, inorder] at hc
  | node l e r ihl ihr =>
      rw [BSTb_node] at hb
      obtain ⟨hkl, hkr, hbl, hbr⟩ := hb
      rw [containsKey_iff, keysOf_node] at hc
      simp only [List.mem_append, List.mem_cons] at hc
      by_cases h1 : k = e.1
      · refine ⟨e.2, ?_⟩
        simp only [subtree_search, if_pos h1]
        show some e = some (k, e.2)
        rw [h1]
      · by_cases h2 : k < e.1
        · have hkmem : k ∈ keysOf l := by
            rcases hc with hc | hc | hc
            · exact hc
            · exact absurd hc h1
            · obtain ⟨x, hxmem, hxk⟩ :=
                List.mem_map.1 (show k ∈ (inorder r).map Prod.fst from hc)
              rw [allKeysB_iff] at hkr
              have := hkr _ hxmem
              simp only [decide_eq_true_eq] at this
              omega
          have hln : isNil l = false := by
            cases l with
            | nil => simp [keysOf, inorder] at hkmem
            | node _ _ _ => rfl
          have hsearch : subtree_search (BTree.node l e r) k =
              Dir.left :: subtree_search l k := by
            simp only [subtree_search, if_neg h1, if_pos h2, hln]
            rfl
          rw [hsearch, elemAt_consL]
          exact ihl hbl ((containsKey_iff l k).2 hkmem)
        · have hkmem : k ∈ keysOf r := by
            rcases hc with hc | hc | hc
            · obtain ⟨x, hxmem, hxk⟩ :=
                List.mem_map.1 (show k ∈ (inorder l).map Prod.fst from hc)
              rw [allKeysB_iff] at hkl
              have := hkl _ hxmem
              simp only [decide_eq_true_eq] at this
              omega
            · exact absurd hc h1
            · exact hc
          have hrn : isNil r = false := by
            cases r with
            | nil => simp [keysOf, inorder] at hkmem
            | node _ _ _ => rfl
          have hsearch : subtree_search (BTree.node l e r) k =
              Dir.right :: subtree_search r k := by
            simp only [subtree_search, if_neg h1, if_neg h2, hrn]
            rfl
          rw [hsearch, elemAt_consR]
          exact ihr hbr ((containsKey_iff r k).2 hkmem)

/-! ## C8 — setting an existing key overwrites in place

When the key is present, `__setitem__` takes the overwrite branch: it calls
only `p.element()._value = v` and the (no-op) access hook, then returns.
No node is added or moved. -/

/-- Overwriting the value at key `k` leaves a list with no key `k` alone. -/
theorem map_if_id {V : Type} (L : List (Int × V)) (k : Int) (v : V)
    (h : ∀ x ∈ L, x.1 ≠ k) :
    L.map (fun kv => if kv.1 = k then (k, v) else kv) = L := by
  induction L with
  | nil => rfl
  | cons a as ih =>
      simp only [List.map_cons, if_neg (h a (by simp)),
        ih (fun x hx => h x (by simp [hx]))]

/-- The element overwrite at the search position, when the key is present,
keeps the shape and rewrites exactly the one item holding `k`. -/
theorem replace_at_search {V : Type} (t : BTree (Int × V)) (k : Int) (v : V)
    (hb : BSTb t = true) (hc : containsKey t k = true) :
    ∃ t2, replaceAt t (subtree_search t k) (k, v) = some t2 ∧
      shape t2 = shape t ∧
      inorder t2 =
        (inorder t).map (fun kv => if kv.1 = k then (k, v) else kv) := by
  induction t with
  | nil => simp [containsKey, keysOf, inorder] at hc
  | node l e r ihl ihr =>
      rw [BSTb_node] at hb
      obtain ⟨hkl, hkr, hbl, hbr⟩ := hb
      rw [containsKey_iff, keysOf_node] at hc
      simp only [List.mem_append, List.mem_cons] at hc
      have hmapl_lt : ∀ x ∈ inorder l, x.1 < e.1 := by
        intro x hx
        have := (allKeysB_iff _ l).1 hkl x hx
        simpa using this
      have hmapr_gt : ∀ x ∈ inorder r, e.1 < x.1 := by
        intro x hx
        have := (allKeysB_iff _ r).1 hkr x hx
        simpa using this
      by_cases h1 : k = e.1
      · have hsearch : subtree_search (BTree.node l e r) k = [] := by
          simp only [subtree_search, if_pos h1]
        rw [hsearch]
        refine ⟨BTree.node l (k, v) r, rfl, rfl, ?_⟩
        simp only [inorder, List.map_append, List.map_cons, if_pos h1.symm]
        rw [map_if_id (inorder l) k v
            (fun x hx => by have := hmapl_lt x hx; omega),
          map_if_id (inorder r) k v
            (fun x hx => by have := hmapr_gt x hx; omega)]
      · by_cases h2 : k < e.1
        · have hkmem : k ∈ keysOf l := by
            rcases hc with hc | hc | hc
            · exact hc
            · exact absurd hc h1
            · obtain ⟨x, hxmem, hxk⟩ :=
                List.mem_map.1 (show k ∈ (inorder r).map Prod.fst from hc)
              have := hmapr_gt x hxmem
              omega
          have hln : isNil l = false := by
            cases l with
            | nil => simp [keysOf, inorder] at hkmem
            | node _ _ _ => rfl
          have hsearch : subtree_search (BTree.node l e r) k =
              Dir.left :: subtree_search l k := by
            simp only [subtree_search, if_neg h1, if_pos h2, hln]
            rfl
          obtain ⟨l2, hl2, hshape, hinor⟩ :=
            ihl hbl ((containsKey_iff l k).2 hkmem)
          rw [hsearch, replaceAt_consL, hl2]
          refine ⟨BTree.node l2 e r, rfl, ?_, ?_⟩
          · simp only [shape, hshape]
          · simp only [inorder, List.map_append, List.map_cons, hinor]
            rw [if_neg (fun h => h1 h.symm),
              map_if_id (inorder r) k v
                (fun x hx => by have := hmapr_gt x hx; omega)]
        · have hkmem : k ∈ keysOf r := by
            rcases hc with hc | hc | hc
            · obtain ⟨x, hxmem, hxk⟩ :=
                List.mem_map.1 (show k ∈ (inorder l).map Prod.fst from hc)
              have := hmapl_lt x hxmem
              omega
            · exact absurd hc h1
            · exact hc
          have hrn : isNil r = false := by
            cases r with
            | nil => simp [keysOf, inorder] at hkmem
            | node _ _ _ => rfl
          have hsearch : subtree_search (BTree.node l e r) k =
              Dir.right :: subtree_search r k := by
            simp only [subtree_search, if_neg h1, if_neg h2, hrn]
            rfl
          obtain ⟨r2, hr2, hshape, hinor⟩ :=
            ihr hbr ((containsKey_iff r k).2 hkmem)
          rw [hsearch, replaceAt_consR, hr2]
          refine ⟨BTree.node l e r2, rfl, ?_, ?_⟩
          · simp only [shape, hshape]
          · simp only [inorder, List.map_append, List.map_cons, hinor]
            rw [if_neg (fun h => h1 h.symm),
              map_if_id (inorder l) k v
                (fun x hx => by have := hmapl_lt x hx; omega)]

/-- C8: on a map already containing key `k` (BST invariant assumed, as
maintained by the map layer), `__setitem__(k, v)` takes the overwrite branch
and returns early: it produces `Res.ok` of a tree with the same shape (hence
the same node count and node placement), whose in-order items are unchanged
except that the single item with key `k` now stores value `v`.  No node is
added and `_rebalance_insert` is not reached. -/
theorem c8_setitem_overwrites_in_place {V : Type} (t : BTree (Int × V))
    (k : Int) (v : V) (hb : BSTb t = true) (hc : containsKey t k = true) :
    ∃ t2, setitem t k v = Res.ok t2 ∧ shape t2 = shape t ∧
      sizeT t2 = sizeT t ∧
      inorder t2 =
        (inorder t).map (fun kv => if kv.1 = k then (k, v) else kv) := by
  have hne : isNil t = false := by
    cases t with
    | nil => simp [containsKey, keysOf, inorder] at hc
    | node _ _ _ => rfl
  obtain ⟨v0, hfind⟩ := search_finds_key t k hb hc
  obtain ⟨t2, hrep, hshape, hinor⟩ := replace_at_search t k v hb hc
  refine ⟨t2, ?_, hshape, ?_, hinor⟩
  · rw [setitem_not_nil t hne k v, hfind]
    simp [hrep]
  · simp [sizeT, hinor]

/-- C8 witness: overwriting key 7 in the Scenario E map. -/
theorem c8_setitem_overwrites_in_place_witness :
    BSTb tmScenarioE = true ∧ containsKey tmScenarioE 7 = true ∧
    (∃ t2, setitem tmScenarioE 7 42 = Res.ok t2 ∧
      shape t2 = shape tmScenarioE ∧ sizeT t2 = sizeT tmScenarioE ∧
      inorder t2 =
        (inorder tmScenarioE).map
          (fun kv => if kv.1 = 7 then (7, 42) else kv)) :=
  ⟨by decide, by decide,
    c8_setitem_overwrites_in_place tmScenarioE 7 42 (by decide) (by decide)⟩

/-! ## Further path-step facts, used for the delete and range theorems -/

theorem elemAt_node_nil {α : Type} (l : BTree α) (e : α) (r : BTree α) :
    elemAt (BTree.node l e r) [] = some e := rfl

theorem setSubtreeAt_consL {α : Type} (l : BTree α) (e : α) (r : BTree α)
    (q : Path) (s : BTree α) :
    setSubtreeAt (BTree.node l e r) (Dir.left :: q) s =
      BTree.node (setSubtreeAt l q s) e r := rfl

theorem setSubtreeAt_consR {α : Type} (l : BTree α) (e : α) (r : BTree α)
    (q : Path) (s : BTree α) :
    setSubtreeAt (BTree.node l e r) (Dir.right :: q) s =
      BTree.node l e (setSubtreeAt r q s) := rfl

theorem replaceAt_nilpath {α : Type} (l : BTree α) (e x : α) (r : BTree α) :
    replaceAt (BTree.node l e r) [] x = some (BTree.node l x r) := rfl

theorem addRightAt_consL {α : Type} (l : BTree α) (e : α) (r : BTree α)
    (q : Path) (x : α) :
    addRightAt (BTree.node l e r) (Dir.left :: q) x =
      (addRightAt l q x).map (fun l2 => BTree.node l2 e r) := by
  unfold addRightAt
  rw [subtreeAt_consL]
  cases subtreeAt l q with
  | none => rfl
  | some u =>
      cases u with
      | nil => rfl
      | node a b c => cases c <;> rfl

theorem addRightAt_consR {α : Type} (l : BTree α) (e : α) (r : BTree α)
    (q : Path) (x : α) :
    addRightAt (BTree.node l e r) (Dir.right :: q) x =
      (addRightAt r q x).map (fun r2 => BTree.node l e r2) := by
  unfold addRightAt
  rw [subtreeAt_consR]
  cases subtreeAt r q with
  | none => rfl
  | some u =>
      cases u with
      | nil => rfl
      | node a b c => cases c <;> rfl

theorem addLeftAt_consL {α : Type} (l : BTree α) (e : α) (r : BTree α)
    (q : Path) (x : α) :
    addLeftAt (BTree.node l e r) (Dir.left :: q) x =
      (addLeftAt l q x).map (fun l2 => BTree.node l2 e r) := by
  unfold addLeftAt
  rw [subtreeAt_consL]
  cases subtreeAt l q with
  | none => rfl
  | some u =>
      cases u with
      | nil => rfl
      | node a b c => cases a <;> rfl

theorem addLeftAt_consR {α : Type} (l : BTree α) (e : α) (r : BTree α)
    (q : Path) (x : α) :
    addLeftAt (BTree.node l e r) (Dir.right :: q) x =
      (addLeftAt r q x).map (fun r2 => BTree.node l e r2) := by
  unfold addLeftAt
  rw [subtreeAt_consR]
  cases subtreeAt r q with
  | none => rfl
  | some u =>
      cases u with
      | nil => rfl
      | node a b c => cases a <;> rfl

/-- The search path always designates an existing node (on a non-empty
tree). -/
theorem search_elem {V : Type} (t : BTree (Int × V)) (k : Int)
    (hn : isNil t = false) :
    ∃ e2, elemAt t (subtree_search t k) = some e2 := by
  induction t with
  | nil => simp [isNil] at hn
  | node l e r ihl ihr =>
      by_cases h1 : k = e.1
      · refine ⟨e, ?_⟩
        simp only [subtree_search, if_pos h1]
        rfl
      · by_cases h2 : k < e.1
        · cases l with
          | nil =>
              refine ⟨e, ?_⟩
              simp only [subtree_search, if_neg h1, if_pos h2, isNil, if_true]
              rfl
          | node a b c =>
              have hst : subtree_search (BTree.node (BTree.node a b c) e r) k =
                  Dir.left :: subtree_search (BTree.node a b c) k := by
                simp only [subtree_search, if_neg h1, if_pos h2, isNil]
                rfl
              rw [hst, elemAt_consL]
              exact ihl rfl
        · cases r with
          | nil =>
              refine ⟨e, ?_⟩
              simp only [subtree_search, if_neg h1, if_neg h2, isNil, if_true]
              rfl
          | node a b c =>
              have hst : subtree_search (BTree.node l e (BTree.node a b c)) k =
                  Dir.right :: subtree_search (BTree.node a b c) k := by
                simp only [subtree_search, if_neg h1, if_neg h2, isNil]
                rfl
              rw [hst, elemAt_consR]
              exact ihr rfl

theorem elemAt_some_subtree {α : Type} (t : BTree α) (p : Path) (e2 : α)
    (h : elemAt t p = some e2) :
    ∃ a b, subtreeAt t p = some (BTree.node a e2 b) := by
  unfold elemAt at h
  cases hs : subtreeAt t p with
  | none => rw [hs] at h; cases h
  | some u =>
      rw [hs] at h
      cases u with
      | nil => cases h
      | node a b c =>
          simp only [Option.some.injEq] at h
          exact ⟨a, c, by rw [h]⟩

/-- `_subtree_last_position` designates a node with no right child, and
splicing that node's left child into its slot removes exactly the last
in-order element. -/
theorem last_path_splice {α : Type} (l : BTree α) (hn : isNil l = false) :
    ∃ a m, subtreeAt l (subtree_last_path l) = some (BTree.node a m BTree.nil) ∧
      inorder (setSubtreeAt l (subtree_last_path l) a) ++ [m] = inorder l := by
  induction l with
  | nil => simp [isNil] at hn
  | node x e r ihx ihr =>
      cases r with
      | nil =>
          refine ⟨x, e, rfl, ?_⟩
          show inorder x ++ [e] = inorder (BTree.node x e BTree.nil)
          simp [inorder]
      | node r1 r2 r3 =>
          obtain ⟨a, m, hsub, hin⟩ := ihr rfl
          refine ⟨a, m, ?_, ?_⟩
          · show subtreeAt (BTree.node x e (BTree.node r1 r2 r3))
              (Dir.right :: subtree_last_path (BTree.node r1 r2 r3)) = _
            rw [subtreeAt_consR]
            exact hsub
          · show inorder (setSubtreeAt (BTree.node x e (BTree.node r1 r2 r3))
              (Dir.right :: subtree_last_path (BTree.node r1 r2 r3)) a) ++ [m] = _
            rw [setSubtreeAt_consR]
            show (inorder x ++ e :: inorder (setSubtreeAt (BTree.node r1 r2 r3)
              (subtree_last_path (BTree.node r1 r2 r3)) a)) ++ [m] =
              inorder x ++ e :: inorder (BTree.node r1 r2 r3)
            rw [← hin]
            simp [List.append_assoc]

/-- The splicing branch of `_delete` at a non-root position. -/
theorem lbt_delete_cons {α : Type} (t : BTree α) (d : Dir) (q : Path)
    (l0 : BTree α) (e0 : α) (r0 : BTree α)
    (hs : subtreeAt t (d :: q) = some (BTree.node l0 e0 r0))
    (h1 : (!isNil l0 && !isNil r0) = false) :
    lbt_delete t (d :: q) =
      DRes.ok (setSubtreeAt t (d :: q) (if !isNil l0 then l0 else r0)) e0 := by
  unfold lbt_delete
  rw [hs]
  simp only [h1, Bool.false_eq_true, if_false]

theorem dres_to_res_tree {V : Type} (d : DRes (Int × V)) :
    (match d with
     | DRes.ok t2 _ => Res.ok (V := V) t2
     | DRes.err e2 t2 => Res.err e2 t2).tree = d.tree := by
  cases d <;> rfl

theorem lbt_delete_tree_consL {α : Type} (A : BTree α) (e : α) (B : BTree α)
    (p : Path) :
    (lbt_delete (BTree.node A e B) (Dir.left :: p)).tree =
      BTree.node ((lbt_delete A p).tree) e B := by
  unfold lbt_delete
  rw [subtreeAt_consL]
  cases hs : subtreeAt A p with
  | none => rfl
  | some u =>
      cases u with
      | nil => rfl
      | node l0 e0 r0 =>
          cases hb : (!isNil l0 && !isNil r0) with
          | true => simp only [hb, if_true]; rfl
          | false =>
              simp only [hb, Bool.false_eq_true, if_false]
              cases p with
              | nil =>
                  have hA : A = BTree.node l0 e0 r0 := by
                    cases A with
                    | nil => simpa [subtreeAt] using hs
                    | node a b c => simpa [subtreeAt] using hs
                  subst hA
                  rfl
              | cons d2 q2 => rfl

theorem lbt_delete_tree_consR {α : Type} (A : BTree α) (e : α) (B : BTree α)
    (p : Path) :
    (lbt_delete (BTree.node A e B) (Dir.right :: p)).tree =
      BTree.node A e ((lbt_delete B p).tree) := by
  unfold lbt_delete
  rw [subtreeAt_consR]
  cases hs : subtreeAt B p with
  | none => rfl
  | some u =>
      cases u with
      | nil => rfl
      | node l0 e0 r0 =>
          cases hb : (!isNil l0 && !isNil r0) with
          | true => simp only [hb, if_true]; rfl
          | false =>
              simp only [hb, Bool.false_eq_true, if_false]
              cases p with
              | nil =>
                  have hB : B = BTree.node l0 e0 r0 := by
                    cases B with
                    | nil => simpa [subtreeAt] using hs
                    | node a b c => simpa [subtreeAt] using hs
                  subst hB
                  rfl
              | cons d2 q2 => rfl

theorem tm_delete_tree_consL {V : Type} (l : BTree (Int × V)) (e : Int × V)
    (r : BTree (Int × V)) (q : Path) (l0 : BTree (Int × V)) (e0 : Int × V)
    (r0 : BTree (Int × V)) (hs : subtreeAt l q = some (BTree.node l0 e0 r0)) :
    (tm_delete (BTree.node l e r) (Dir.left :: q)).tree =
      BTree.node ((tm_delete l q).tree) e r := by
  unfold tm_delete
  rw [subtreeAt_consL, hs]
  cases hb : (!isNil l0 && !isNil r0) with
  | false =>
      simp only [hb, Bool.false_eq_true, if_false]
      rw [dres_to_res_tree, dres_to_res_tree, lbt_delete_tree_consL]
  | true =>
      simp only [hb, if_true]
      rw [List.cons_append, elemAt_consL]
      cases he : elemAt l (q ++ Dir.left :: subtree_last_path l0) with
      | none => rfl
      | some re =>
          dsimp only
          rw [replaceAt_consL]
          cases hrep : replaceAt l q re with
          | none => rfl
          | some t2 =>
              simp only [Option.map_some']
              rw [dres_to_res_tree, dres_to_res_tree, lbt_delete_tree_consL]

theorem tm_delete_tree_consR {V : Type} (l : BTree (Int × V)) (e : Int × V)
    (r : BTree (Int × V)) (q : Path) (l0 : BTree (Int × V)) (e0 : Int × V)
    (r0 : BTree (Int × V)) (hs : subtreeAt r q = some (BTree.node l0 e0 r0)) :
    (tm_delete (BTree.node l e r) (Dir.right :: q)).tree =
      BTree.node l e ((tm_delete r q).tree) := by
  unfold tm_delete
  rw [subtreeAt_consR, hs]
  cases hb : (!isNil l0 && !isNil r0) with
  | false =>
      simp only [hb, Bool.false_eq_true, if_false]
      rw [dres_to_res_tree, dres_to_res_tree, lbt_delete_tree_consR]
  | true =>
      simp only [hb, if_true]
      rw [List.cons_append, elemAt_consR]
      cases he : elemAt r (q ++ Dir.left :: subtree_last_path l0) with
      | none => rfl
      | some re =>
          dsimp only
          rw [replaceAt_consR]
          cases hrep : replaceAt r q re with
          | none => rfl
          | some t2 =>
              simp only [Option.map_some']
              rw [dres_to_res_tree, dres_to_res_tree, lbt_delete_tree_consR]

/-- `(if !isNil a then a else nil)` is just `a`. -/
theorem child_of_no_right {α : Type} (a : BTree α) :
    (if !isNil a then a else BTree.nil) = a := by
  cases a <;> rfl

/-- `TreeMap.delete` at the root of a tree whose root has two children:
the root item is overwritten with the in-order predecessor (last of the left
subtree) and that predecessor's node is spliced out. -/
theorem tm_delete_root_two {V : Type} (l : BTree (Int × V)) (e : Int × V)
    (r : BTree (Int × V)) (hl : isNil l = false) (hr : isNil r = false) :
    ∃ a m, subtreeAt l (subtree_last_path l) = some (BTree.node a m BTree.nil) ∧
      tm_delete (BTree.node l e r) [] =
        Res.ok (BTree.node (setSubtreeAt l (subtree_last_path l) a) m r) ∧
      inorder (setSubtreeAt l (subtree_last_path l) a) ++ [m] = inorder l := by
  obtain ⟨a, m, hsub, hin⟩ := last_path_splice l hl
  refine ⟨a, m, hsub, ?_, hin⟩
  unfold tm_delete
  have hroot : subtreeAt (BTree.node l e r) ([] : Path) =
      some (BTree.node l e r) := rfl
  rw [hroot]
  have hb : (!isNil l && !isNil r) = true := by simp [hl, hr]
  simp only [hb, if_true, List.nil_append]
  have helem : elemAt (BTree.node l e r) (Dir.left :: subtree_last_path l) =
      some m := by
    rw [elemAt_consL]
    unfold elemAt
    rw [hsub]
  rw [helem]
  dsimp only
  rw [replaceAt_nilpath]
  dsimp only
  have hsub2 : subtreeAt (BTree.node l m r)
      (Dir.left :: subtree_last_path l) = some (BTree.node a m BTree.nil) := by
    rw [subtreeAt_consL]
    exact hsub
  rw [lbt_delete_cons (BTree.node l m r) Dir.left (subtree_last_path l)
    a m BTree.nil hsub2 (by simp [isNil])]
  dsimp only
  rw [setSubtreeAt_consL, child_of_no_right]

/-- `TreeMap.delete` at the root of a tree whose root has at most one child:
`_delete` crashes with `UnboundLocalError` but has already reassigned the
root to the spliced child, so the resulting tree is that child. -/
theorem tm_delete_root_le_one {V : Type} (l : BTree (Int × V)) (e : Int × V)
    (r : BTree (Int × V)) (hb : (!isNil l && !isNil r) = false) :
    tm_delete (BTree.node l e r) [] =
      Res.err PyErr.unboundLocalError (if !isNil l then l else r) := by
  unfold tm_delete
  have hroot : subtreeAt (BTree.node l e r) ([] : Path) =
      some (BTree.node l e r) := rfl
  rw [hroot]
  simp only [hb, Bool.false_eq_true, if_false]
  unfold lbt_delete
  rw [hroot]
  simp only [hb, Bool.false_eq_true, if_false]

/-! ## The BST invariant and strictly ascending in-order keys coincide -/

theorem pairwise_of_BSTb {V : Type} (t : BTree (Int × V))
    (hb : BSTb t = true) :
    List.Pairwise (fun a b : Int × V => a.1 < b.1) (inorder t) := by
  induction t with
  | nil => exact List.Pairwise.nil
  | node l e r ihl ihr =>
      rw [BSTb_node] at hb
      obtain ⟨hkl, hkr, hbl, hbr⟩ := hb
      have hl := (allKeysB_iff _ l).1 hkl
      have hr := (allKeysB_iff _ r).1 hkr
      simp only [decide_eq_true_eq] at hl hr
      show List.Pairwise _ (inorder l ++ e :: inorder r)
      rw [List.pairwise_append]
      refine ⟨ihl hbl, ?_, ?_⟩
      · rw [List.pairwise_cons]
        exact ⟨fun b hb2 => hr b hb2, ihr hbr⟩
      · intro a ha b hb2
        rcases List.mem_cons.1 hb2 with rfl | hb3
        · exact hl a ha
        · exact lt_trans (hl a ha) (hr b hb3)

theorem BSTb_of_pairwise {V : Type} (t : BTree (Int × V))
    (h : List.Pairwise (fun a b : Int × V => a.1 < b.1) (inorder t)) :
    BSTb t = true := by
  induction t with
  | nil => rfl
  | node l e r ihl ihr =>
      rw [show inorder (BTree.node l e r) = inorder l ++ e :: inorder r
        from rfl, List.pairwise_append] at h
      obtain ⟨h1, h2, h3⟩ := h
      rw [List.pairwise_cons] at h2
      rw [BSTb_node]
      refine ⟨?_, ?_, ihl h1, ihr h2.2⟩
      · rw [allKeysB_iff]
        intro x hx
        simpa using h3 x hx e (List.mem_cons_self _ _)
      · rw [allKeysB_iff]
        intro x hx
        simpa using h2.1 x hx

/-! ## Deletion removes exactly the item with the deleted key -/

/-- Dispatch of the non-empty branch of `__delitem__`. -/
theorem delitem_node {V : Type} (l : BTree (Int × V)) (e : Int × V)
    (r : BTree (Int × V)) (k : Int) :
    delitem (BTree.node l e r) k =
      (match elemAt (BTree.node l e r)
          (subtree_search (BTree.node l e r) k) with
       | some e2 =>
           if k = e2.1 then
             tm_delete (BTree.node l e r) (subtree_search (BTree.node l e r) k)
           else Res.err PyErr.keyError (BTree.node l e r)
       | none => Res.err PyErr.keyError (BTree.node l e r)) := rfl

/-- If the search in a BST ends at a node whose key is not `k`, the map does
not contain `k`. -/
theorem not_contains_of_search_miss {V : Type} (t : BTree (Int × V)) (k : Int)
    (hb : BSTb t = true) (e2 : Int × V)
    (he : elemAt t (subtree_search t k) = some e2) (hne : k ≠ e2.1) :
    ∀ x ∈ inorder t, x.1 ≠ k := by
  intro x hx hxk
  have hc : containsKey t k = true := by
    rw [containsKey_iff, keysOf]
    exact List.mem_map.2 ⟨x, hx, hxk⟩
  obtain ⟨v0, hv0⟩ := search_finds_key t k hb hc
  rw [he] at hv0
  simp only [Option.some.injEq] at hv0
  exact hne (by rw [hv0])

theorem delitem_tree_inorder {V : Type} (t : BTree (Int × V)) (k : Int)
    (hb : BSTb t = true) :
    inorder ((delitem t k).tree) =
      (inorder t).filter (fun kv => decide (kv.1 ≠ k)) := by
  induction t with
  | nil => rfl
  | node l e r ihl ihr =>
      have hbn := hb
      rw [BSTb_node] at hbn
      obtain ⟨hkl, hkr, hbl, hbr⟩ := hbn
      have hl_lt : ∀ x ∈ inorder l, x.1 < e.1 := by
        intro x hx
        simpa using (allKeysB_iff _ l).1 hkl x hx
      have hr_gt : ∀ x ∈ inorder r, e.1 < x.1 := by
        intro x hx
        simpa using (allKeysB_iff _ r).1 hkr x hx
      rw [delitem_node]
      by_cases h1 : k = e.1
      · have hsearch : subtree_search (BTree.node l e r) k = [] := by
          simp only [subtree_search, if_pos h1]
        rw [hsearch, elemAt_node_nil]
        dsimp only
        rw [if_pos (by rw [h1])]
        have hfl : (inorder l).filter (fun kv => decide (kv.1 ≠ k)) =
            inorder l :=
          List.filter_eq_self.2 (fun a ha => by
            have := hl_lt a ha
            simp only [decide_eq_true_eq]
            omega)
        have hfr : (inorder r).filter (fun kv => decide (kv.1 ≠ k)) =
            inorder r :=
          List.filter_eq_self.2 (fun a ha => by
            have := hr_gt a ha
            simp only [decide_eq_true_eq]
            omega)
        have hfe : (decide (e.1 ≠ k)) = false := by simp [h1]
        cases hln : isNil l with
        | true =>
            cases l with
            | node _ _ _ => simp [isNil] at hln
            | nil =>
                rw [tm_delete_root_le_one BTree.nil e r (by simp [isNil])]
                show inorder r = _
                rw [show inorder (BTree.node BTree.nil e r) = e :: inorder r
                  from rfl]
                rw [List.filter_cons, hfe, if_neg Bool.false_ne_true, hfr]
        | false =>
            cases hrn : isNil r with
            | true =>
                cases r with
                | node _ _ _ => simp [isNil] at hrn
                | nil =>
                    rw [tm_delete_root_le_one l e BTree.nil
                      (by simp [isNil, hln])]
                    show inorder (Res.err PyErr.unboundLocalError
                      (if !isNil l then l else BTree.nil)).tree = _
                    rw [child_of_no_right]
                    show inorder l = _
                    rw [show inorder (BTree.node l e BTree.nil) =
                      inorder l ++ e :: ([] : List (Int × V)) from rfl]
                    rw [List.filter_append, hfl, List.filter_cons, hfe,
                      if_neg Bool.false_ne_true, List.filter_nil,
                      List.append_nil]
            | false =>
                obtain ⟨a, m, hsub, hok, hin⟩ :=
                  tm_delete_root_two l e r hln hrn
                rw [hok]
                show inorder (BTree.node
                  (setSubtreeAt l (subtree_last_path l) a) m r) = _
                have hrhs : (inorder (BTree.node l e r)).filter
                    (fun kv => decide (kv.1 ≠ k)) =
                    inorder l ++ inorder r := by
                  rw [show inorder (BTree.node l e r) =
                    inorder l ++ e :: inorder r from rfl]
                  rw [List.filter_append, hfl, List.filter_cons, hfe,
                    if_neg Bool.false_ne_true, hfr]
                rw [hrhs, ← hin]
                show inorder (setSubtreeAt l (subtree_last_path l) a) ++
                  m :: inorder r = _
                simp [List.append_assoc]
      · by_cases h2 : k < e.1
        · cases l with
          | nil =>
              have hsearch : subtree_search
                  (BTree.node BTree.nil e r) k = [] := by
                simp only [subtree_search, if_neg h1, if_pos h2, isNil, if_true]
              rw [hsearch, elemAt_node_nil]
              dsimp only
              rw [if_neg h1]
              show inorder (BTree.node BTree.nil e r) = _
              refine (List.filter_eq_self.2 ?_).symm
              intro x hx
              simp only [inorder, List.nil_append, List.mem_cons] at hx
              simp only [decide_eq_true_eq]
              rcases hx with rfl | hx
              · omega
              · have := hr_gt x hx
                omega
          | node a0 b0 c0 =>
              have hsearch : subtree_search
                  (BTree.node (BTree.node a0 b0 c0) e r) k =
                  Dir.left :: subtree_search (BTree.node a0 b0 c0) k := by
                simp only [subtree_search, if_neg h1, if_pos h2, isNil]
                rfl
              rw [hsearch, elemAt_consL]
              obtain ⟨e2, he2⟩ := search_elem (BTree.node a0 b0 c0) k rfl
              rw [he2]
              dsimp only
              by_cases hk2 : k = e2.1
              · rw [if_pos hk2]
                obtain ⟨sa, sb, hsub⟩ := elemAt_some_subtree _ _ _ he2
                rw [show Res.tree (tm_delete
                    (BTree.node (BTree.node a0 b0 c0) e r)
                    (Dir.left :: subtree_search (BTree.node a0 b0 c0) k)) =
                    BTree.node ((tm_delete (BTree.node a0 b0 c0)
                      (subtree_search (BTree.node a0 b0 c0) k)).tree) e r
                  from tm_delete_tree_consL _ e r _ sa e2 sb hsub]
                have hdel : (delitem (BTree.node a0 b0 c0) k).tree =
                    (tm_delete (BTree.node a0 b0 c0)
                      (subtree_search (BTree.node a0 b0 c0) k)).tree := by
                  rw [delitem_node, he2]
                  dsimp only
                  rw [if_pos hk2]
                rw [← hdel]
                show inorder ((delitem (BTree.node a0 b0 c0) k).tree) ++
                  e :: inorder r = _
                rw [ihl hbl]
                have hfe2 : (decide (e.1 ≠ k)) = true := by
                  simp only [decide_eq_true_eq]
                  omega
                have hfr : (inorder r).filter (fun kv => decide (kv.1 ≠ k)) =
                    inorder r :=
                  List.filter_eq_self.2 (fun x hx => by
                    have := hr_gt x hx
                    simp only [decide_eq_true_eq]
                    omega)
                show _ = (inorder (BTree.node a0 b0 c0) ++
                  e :: inorder r).filter (fun kv => decide (kv.1 ≠ k))
                rw [List.filter_append, List.filter_cons, hfe2,
                  if_pos rfl, hfr]
              · rw [if_neg hk2]
                show inorder (BTree.node (BTree.node a0 b0 c0) e r) = _
                refine (List.filter_eq_self.2 ?_).symm
                intro x hx
                simp only [decide_eq_true_eq]
                exact not_contains_of_search_miss _ k hb e2
                  (by rw [hsearch, elemAt_consL]; exact he2) hk2 x hx
        · cases r with
          | nil =>
              have hsearch : subtree_search
                  (BTree.node l e BTree.nil) k = [] := by
                simp only [subtree_search, if_neg h1, if_neg h2, isNil, if_true]
              rw [hsearch, elemAt_node_nil]
              dsimp only
              rw [if_neg h1]
              show inorder (BTree.node l e BTree.nil) = _
              refine (List.filter_eq_self.2 ?_).symm
              intro x hx
              simp only [inorder, List.append_nil, List.mem_append,
                List.mem_cons, List.not_mem_nil, or_false] at hx
              simp only [decide_eq_true_eq]
              rcases hx with hx | rfl
              · have := hl_lt x hx
                omega
              · omega
          | node a0 b0 c0 =>
              have hsearch : subtree_search
                  (BTree.node l e (BTree.node a0 b0 c0)) k =
                  Dir.right :: subtree_search (BTree.node a0 b0 c0) k := by
                simp only [subtree_search, if_neg h1, if_neg h2, isNil]
                rfl
              rw [hsearch, elemAt_consR]
              obtain ⟨e2, he2⟩ := search_elem (BTree.node a0 b0 c0) k rfl
              rw [he2]
              dsimp only
              by_cases hk2 : k = e2.1
              · rw [if_pos hk2]
                obtain ⟨sa, sb, hsub⟩ := elemAt_some_subtree _ _ _ he2
                rw [show Res.tree (tm_delete
                    (BTree.node l e (BTree.node a0 b0 c0))
                    (Dir.right :: subtree_search (BTree.node a0 b0 c0) k)) =
                    BTree.node l e ((tm_delete (BTree.node a0 b0 c0)
                      (subtree_search (BTree.node a0 b0 c0) k)).tree)
                  from tm_delete_tree_consR l e _ _ sa e2 sb hsub]
                have hdel : (delitem (BTree.node a0 b0 c0) k).tree =
                    (tm_delete (BTree.node a0 b0 c0)
                      (subtree_search (BTree.node a0 b0 c0) k)).tree := by
                  rw [delitem_node, he2]
                  dsimp only
                  rw [if_pos hk2]
                rw [← hdel]
                show inorder l ++
                  e :: inorder ((delitem (BTree.node a0 b0 c0) k).tree) = _
                rw [ihr hbr]
                have hfe2 : (decide (e.1 ≠ k)) = true := by
                  simp only [decide_eq_true_eq]
                  omega
                have hfl : (inorder l).filter (fun kv => decide (kv.1 ≠ k)) =
                    inorder l :=
                  List.filter_eq_self.2 (fun x hx => by
                    have := hl_lt x hx
                    simp only [decide_eq_true_eq]
                    omega)
                show _ = (inorder l ++
                  e :: inorder (BTree.node a0 b0 c0)).filter
                    (fun kv => decide (kv.1 ≠ k))
                rw [List.filter_append, List.filter_cons, hfe2,
                  if_pos rfl, hfl]
              · rw [if_neg hk2]
                show inorder (BTree.node l e (BTree.node a0 b0 c0)) = _
                refine (List.filter_eq_self.2 ?_).symm
                intro x hx
                simp only [decide_eq_true_eq]
                exact not_contains_of_search_miss _ k hb e2
                  (by rw [hsearch, elemAt_consR]; exact he2) hk2 x hx

/-! ## Insertion preserves the BST invariant -/

theorem addLeftAt_nilpath {α : Type} (e x : α) (r : BTree α) :
    addLeftAt (BTree.node BTree.nil e r) [] x =
      some (BTree.node (BTree.node BTree.nil x BTree.nil) e r) := rfl

theorem addRightAt_nilpath {α : Type} (l : BTree α) (e x : α) :
    addRightAt (BTree.node l e BTree.nil) [] x =
      some (BTree.node l e (BTree.node BTree.nil x BTree.nil)) := rfl

/-- `__setitem__` on a node holding exactly the target key. -/
theorem setitem_tree_eq {V : Type} (l : BTree (Int × V)) (e : Int × V)
    (r : BTree (Int × V)) (k : Int) (v : V) (h1 : k = e.1) :
    (setitem (BTree.node l e r) k v).tree = BTree.node l (k, v) r := by
  rw [setitem_not_nil (BTree.node l e r) rfl k v]
  have hsearch : subtree_search (BTree.node l e r) k = [] := by
    simp only [subtree_search, if_pos h1]
  rw [hsearch, elemAt_node_nil]
  dsimp only
  rw [if_pos h1.symm, replaceAt_nilpath]
  rfl

/-- `__setitem__` descending below a key greater than the target: the anchor
has no left child, so the new item becomes its left child. -/
theorem setitem_tree_lt_nil {V : Type} (e : Int × V) (r : BTree (Int × V))
    (k : Int) (v : V) (h1 : ¬ k = e.1) (h2 : k < e.1) :
    (setitem (BTree.node BTree.nil e r) k v).tree =
      BTree.node (BTree.node BTree.nil (k, v) BTree.nil) e r := by
  rw [setitem_not_nil (BTree.node BTree.nil e r) rfl k v]
  have hsearch : subtree_search (BTree.node BTree.nil e r) k = [] := by
    simp only [subtree_search, if_neg h1, if_pos h2, isNil, if_true]
  rw [hsearch, elemAt_node_nil]
  dsimp only
  rw [if_neg (fun h => h1 h.symm), if_neg (by omega), addLeftAt_nilpath]
  rfl

/-- `__setitem__` recursing into a non-empty left subtree. -/
theorem setitem_tree_lt_cons {V : Type} (a : BTree (Int × V)) (b : Int × V)
    (c : BTree (Int × V)) (e : Int × V) (r : BTree (Int × V)) (k : Int) (v : V)
    (h1 : ¬ k = e.1) (h2 : k < e.1) :
    (setitem (BTree.node (BTree.node a b c) e r) k v).tree =
      BTree.node ((setitem (BTree.node a b c) k v).tree) e r := by
  have hsearch : subtree_search (BTree.node (BTree.node a b c) e r) k =
      Dir.left :: subtree_search (BTree.node a b c) k := by
    simp only [subtree_search, if_neg h1, if_pos h2, isNil]
    rfl
  rw [setitem_not_nil (BTree.node (BTree.node a b c) e r) rfl k v,
    setitem_not_nil (BTree.node a b c) rfl k v, hsearch, elemAt_consL]
  cases he : elemAt (BTree.node a b c) (subtree_search (BTree.node a b c) k)
    with
  | none => rfl
  | some e2 =>
      dsimp only
      by_cases hc1 : e2.1 = k
      · rw [if_pos hc1, if_pos hc1, replaceAt_consL]
        cases replaceAt (BTree.node a b c)
          (subtree_search (BTree.node a b c) k) (k, v) with
        | none => rfl
        | some t2 => rfl
      · by_cases hc2 : e2.1 < k
        · rw [if_neg hc1, if_neg hc1, if_pos hc2, if_pos hc2, addRightAt_consL]
          cases addRightAt (BTree.node a b c)
            (subtree_search (BTree.node a b c) k) (k, v) with
          | none => rfl
          | some t2 => rfl
        · rw [if_neg hc1, if_neg hc1, if_neg hc2, if_neg hc2, addLeftAt_consL]
          cases addLeftAt (BTree.node a b c)
            (subtree_search (BTree.node a b c) k) (k, v) with
          | none => rfl
          | some t2 => rfl

/-- `__setitem__` anchored at a key smaller than the target with no right
child: the new item becomes the anchor's right child. -/
theorem setitem_tree_gt_nil {V : Type} (l : BTree (Int × V)) (e : Int × V)
    (k : Int) (v : V) (h1 : ¬ k = e.1) (h2 : ¬ k < e.1) :
    (setitem (BTree.node l e BTree.nil) k v).tree =
      BTree.node l e (BTree.node BTree.nil (k, v) BTree.nil) := by
  rw [setitem_not_nil (BTree.node l e BTree.nil) rfl k v]
  have hsearch : subtree_search (BTree.node l e BTree.nil) k = [] := by
    simp only [subtree_search, if_neg h1, if_neg h2, isNil, if_true]
  rw [hsearch, elemAt_node_nil]
  dsimp only
  rw [if_neg (fun h => h1 h.symm), if_pos (by omega), addRightAt_nilpath]
  rfl

/-- `__setitem__` recursing into a non-empty right subtree. -/
theorem setitem_tree_gt_cons {V : Type} (l : BTree (Int × V)) (e : Int × V)
    (a : BTree (Int × V)) (b : Int × V) (c : BTree (Int × V)) (k : Int) (v : V)
    (h1 : ¬ k = e.1) (h2 : ¬ k < e.1) :
    (setitem (BTree.node l e (BTree.node a b c)) k v).tree =
      BTree.node l e ((setitem (BTree.node a b c) k v).tree) := by
  have hsearch : subtree_search (BTree.node l e (BTree.node a b c)) k =
      Dir.right :: subtree_search (BTree.node a b c) k := by
    simp only [subtree_search, if_neg h1, if_neg h2, isNil]
    rfl
  rw [setitem_not_nil (BTree.node l e (BTree.node a b c)) rfl k v,
    setitem_not_nil (BTree.node a b c) rfl k v, hsearch, elemAt_consR]
  cases he : elemAt (BTree.node a b c) (subtree_search (BTree.node a b c) k)
    with
  | none => rfl
  | some e2 =>
      dsimp only
      by_cases hc1 : e2.1 = k
      · rw [if_pos hc1, if_pos hc1, replaceAt_consR]
        cases replaceAt (BTree.node a b c)
          (subtree_search (BTree.node a b c) k) (k, v) with
        | none => rfl
        | some t2 => rfl
      · by_cases hc2 : e2.1 < k
        · rw [if_neg hc1, if_neg hc1, if_pos hc2, if_pos hc2, addRightAt_consR]
          cases addRightAt (BTree.node a b c)
            (subtree_search (BTree.node a b c) k) (k, v) with
          | none => rfl
          | some t2 => rfl
        · rw [if_neg hc1, if_neg hc1, if_neg hc2, if_neg hc2, addLeftAt_consR]
          cases addLeftAt (BTree.node a b c)
            (subtree_search (BTree.node a b c) k) (k, v) with
          | none => rfl
          | some t2 => rfl

theorem allKeysB_setitem {V : Type} (f : Int → Bool) (t : BTree (Int × V))
    (k : Int) (v : V) (hf : f k = true) (ht : allKeysB f t = true) :
    allKeysB f ((setitem t k v).tree) = true := by
  induction t with
  | nil =>
      show allKeysB f (BTree.node BTree.nil (k, v) BTree.nil) = true
      simp [allKeysB, hf]
  | node l e r ihl ihr =>
      simp only [allKeysB, Bool.and_eq_true] at ht
      obtain ⟨⟨hfe, hfl⟩, hfr⟩ := ht
      by_cases h1 : k = e.1
      · rw [setitem_tree_eq l e r k v h1]
        simp [allKeysB, hf, hfe, hfl, hfr]
      · by_cases h2 : k < e.1
        · cases l with
          | nil =>
              rw [setitem_tree_lt_nil e r k v h1 h2]
              simp [allKeysB, hf, hfe, hfr]
          | node a b c =>
              rw [setitem_tree_lt_cons a b c e r k v h1 h2]
              simp only [allKeysB, Bool.and_eq_true]
              exact ⟨⟨hfe, ihl hfl⟩, hfr⟩
        · cases r with
          | nil =>
              rw [setitem_tree_gt_nil l e k v h1 h2]
              simp [allKeysB, hf, hfe, hfl]
          | node a b c =>
              rw [setitem_tree_gt_cons l e a b c k v h1 h2]
              simp only [allKeysB, Bool.and_eq_true]
              exact ⟨⟨hfe, hfl⟩, ihr hfr⟩

theorem BSTb_setitem {V : Type} (t : BTree (Int × V)) (k : Int) (v : V)
    (hb : BSTb t = true) : BSTb ((setitem t k v).tree) = true := by
  induction t with
  | nil =>
      show BSTb (BTree.node BTree.nil (k, v) BTree.nil) = true
      rfl
  | node l e r ihl ihr =>
      rw [BSTb_node] at hb
      obtain ⟨hkl, hkr, hbl, hbr⟩ := hb
      by_cases h1 : k = e.1
      · rw [setitem_tree_eq l e r k v h1, BSTb_node]
        refine ⟨?_, ?_, hbl, hbr⟩
        · rw [show (k, v).1 = e.1 from h1]
          exact hkl
        · rw [show (k, v).1 = e.1 from h1]
          exact hkr
      · by_cases h2 : k < e.1
        · cases l with
          | nil =>
              rw [setitem_tree_lt_nil e r k v h1 h2, BSTb_node]
              refine ⟨?_, hkr, ?_, hbr⟩
              · simp [allKeysB, h2]
              · rfl
          | node a b c =>
              rw [setitem_tree_lt_cons a b c e r k v h1 h2, BSTb_node]
              refine ⟨?_, hkr, ihl hbl, hbr⟩
              exact allKeysB_setitem _ _ k v (by simp [h2]) hkl
        · cases r with
          | nil =>
              rw [setitem_tree_gt_nil l e k v h1 h2, BSTb_node]
              refine ⟨hkl, ?_, hbl, ?_⟩
              · simp only [allKeysB, Bool.and_eq_true, decide_eq_true_eq,
                  and_true]
                omega
              · rfl
          | node a b c =>
              rw [setitem_tree_gt_cons l e a b c k v h1 h2, BSTb_node]
              refine ⟨hkl, ?_, hbl, ihr hbr⟩
              exact allKeysB_setitem _ _ k v
                (by simp only [decide_eq_true_eq]; omega) hkr

/-! ## C6 — any sequence of set/delete operations keeps in-order keys
strictly ascending -/

theorem BSTb_applyOp {V : Type} (t : BTree (Int × V)) (op : Op V)
    (hb : BSTb t = true) : BSTb (applyOp t op) = true := by
  cases op with
  | set k v => exact BSTb_setitem t k v hb
  | del k =>
      show BSTb ((delitem t k).tree) = true
      refine BSTb_of_pairwise _ ?_
      rw [delitem_tree_inorder t k hb]
      exact (pairwise_of_BSTb t hb).sublist (List.filter_sublist _)

theorem BSTb_applyOps {V : Type} (ops : List (Op V)) (t : BTree (Int × V))
    (hb : BSTb t = true) : BSTb (ops.foldl applyOp t) = true := by
  induction ops generalizing t with
  | nil => exact hb
  | cons op rest ih => exact ih _ (BSTb_applyOp t op hb)

/-- C6: for every sequence of `__setitem__` and delete operations on a
`TreeMap` (starting empty; a raising delete leaves its in-place partial state
behind), the in-order traversal of the resulting tree yields items with
strictly ascending keys — in particular there are never duplicate keys. -/
theorem c6_inorder_keys_strictly_ascending {V : Type} (ops : List (Op V)) :
    List.Pairwise (fun a b => a < b) (keysOf (applyOps ops)) := by
  have hb : BSTb (applyOps ops) = true := BSTb_applyOps ops BTree.nil rfl
  have hp := pairwise_of_BSTb _ hb
  exact List.pairwise_map.2 hp

/-! ## C7 preparation — `after` computes the in-order successor -/

theorem validPos_of_elemAt {α : Type} (t : BTree α) (p : Path) (x : α)
    (h : elemAt t p = some x) : validPos t p = true := by
  unfold elemAt at h
  unfold validPos
  cases hs : subtreeAt t p with
  | none => rw [hs] at h; cases h
  | some u =>
      cases u with
      | nil => rw [hs] at h; cases h
      | node a b c => rfl

theorem elemAt_of_validPos {α : Type} (t : BTree α) (p : Path)
    (h : validPos t p = true) : ∃ x, elemAt t p = some x := by
  unfold validPos at h
  unfold elemAt
  cases hs : subtreeAt t p with
  | none => rw [hs] at h; cases h
  | some u =>
      cases u with
      | nil => rw [hs] at h; cases h
      | node a b c => exact ⟨b, rfl⟩

theorem subtree_of_validPos {α : Type} (t : BTree α) (p : Path)
    (h : validPos t p = true) :
    ∃ a b c, subtreeAt t p = some (BTree.node a b c) := by
  unfold validPos at h
  cases hs : subtreeAt t p with
  | none => rw [hs] at h; cases h
  | some u =>
      cases u with
      | nil => rw [hs] at h; cases h
      | node a b c => exact ⟨a, b, c, rfl⟩

theorem validPos_consL {α : Type} (l : BTree α) (e : α) (r : BTree α)
    (q : Path) :
    validPos (BTree.node l e r) (Dir.left :: q) = validPos l q := rfl

theorem validPos_consR {α : Type} (l : BTree α) (e : α) (r : BTree α)
    (q : Path) :
    validPos (BTree.node l e r) (Dir.right :: q) = validPos r q := rfl

theorem afterUpRev_append (xs ys : List Dir) :
    afterUpRev (xs ++ ys) =
      (match afterUpRev xs with
       | some rest => some (rest ++ ys)
       | none => afterUpRev ys) := by
  induction xs with
  | nil => rfl
  | cons d rest ih =>
      cases d with
      | right =>
          show afterUpRev (rest ++ ys) = _
          exact ih
      | left => rfl

theorem after_rootpath {α : Type} (l : BTree α) (e : α) (r : BTree α) :
    after (BTree.node l e r) [] =
      (match r with
       | BTree.nil => none
       | BTree.node _ _ _ => some (Dir.right :: subtree_first_path r)) := by
  cases r <;> rfl

theorem after_consL {α : Type} (l : BTree α) (e : α) (r : BTree α) (q : Path)
    (hq : validPos l q = true) :
    after (BTree.node l e r) (Dir.left :: q) =
      (match after l q with
       | some u => some (Dir.left :: u)
       | none => some []) := by
  obtain ⟨a, b, c, hs⟩ := subtree_of_validPos l q hq
  have hafterl : after l q =
      (if isNil c then (afterUpRev q.reverse).map List.reverse
       else some (q ++ Dir.right :: subtree_first_path c)) := by
    unfold after
    rw [hs]
  have hlhs : after (BTree.node l e r) (Dir.left :: q) =
      (if isNil c then
        (afterUpRev (Dir.left :: q).reverse).map List.reverse
       else some ((Dir.left :: q) ++ Dir.right :: subtree_first_path c)) := by
    unfold after
    rw [subtreeAt_consL, hs]
  rw [hlhs, hafterl]
  cases hc : isNil c with
  | false =>
      simp only [hc, Bool.false_eq_true, if_false, List.cons_append]
  | true =>
      simp only [hc, if_true]
      rw [show (Dir.left :: q).reverse = q.reverse ++ [Dir.left] by simp]
      rw [afterUpRev_append]
      cases afterUpRev q.reverse with
      | none => rfl
      | some rest =>
          simp only [Option.map_some']
          show some (rest ++ [Dir.left]).reverse = some (Dir.left :: rest.reverse)
          simp

theorem after_consR {α : Type} (l : BTree α) (e : α) (r : BTree α) (q : Path)
    (hq : validPos r q = true) :
    after (BTree.node l e r) (Dir.right :: q) =
      (after r q).map (fun u => Dir.right :: u) := by
  obtain ⟨a, b, c, hs⟩ := subtree_of_validPos r q hq
  have hafterr : after r q =
      (if isNil c then (afterUpRev q.reverse).map List.reverse
       else some (q ++ Dir.right :: subtree_first_path c)) := by
    unfold after
    rw [hs]
  have hlhs : after (BTree.node l e r) (Dir.right :: q) =
      (if isNil c then
        (afterUpRev (Dir.right :: q).reverse).map List.reverse
       else some ((Dir.right :: q) ++ Dir.right :: subtree_first_path c)) := by
    unfold after
    rw [subtreeAt_consR, hs]
  rw [hlhs, hafterr]
  cases hc : isNil c with
  | false =>
      simp only [hc, Bool.false_eq_true, if_false, List.cons_append,
        Option.map_some']
  | true =>
      simp only [hc, if_true]
      rw [show (Dir.right :: q).reverse = q.reverse ++ [Dir.right] by simp]
      rw [afterUpRev_append]
      cases afterUpRev q.reverse with
      | none => rfl
      | some rest =>
          simp only [Option.map_some']
          show some (rest ++ [Dir.right]).reverse =
            some (Dir.right :: rest.reverse)
          simp

theorem first_path_valid {α : Type} (t : BTree α) (hn : isNil t = false) :
    validPos t (subtree_first_path t) = true := by
  induction t with
  | nil => simp [isNil] at hn
  | node l e r ihl ihr =>
      cases l with
      | nil => rfl
      | node a b c =>
          show validPos (BTree.node (BTree.node a b c) e r)
            (Dir.left :: subtree_first_path (BTree.node a b c)) = true
          rw [validPos_consL]
          exact ihl rfl

theorem inorderFrom_first {α : Type} (t : BTree α) (hn : isNil t = false) :
    inorderFrom t (subtree_first_path t) = inorder t := by
  induction t with
  | nil => simp [isNil] at hn
  | node l e r ihl ihr =>
      cases l with
      | nil => rfl
      | node a b c =>
          show inorderFrom (BTree.node (BTree.node a b c) e r)
            (Dir.left :: subtree_first_path (BTree.node a b c)) = _
          show inorderFrom (BTree.node a b c)
            (subtree_first_path (BTree.node a b c)) ++ e :: inorder r = _
          rw [ihl rfl]
          rfl

/-- Peeling one element off the in-order suffix: the element at `p` followed
by the suffix at the `after` position. -/
theorem inorderFrom_eq_cons {α : Type} (t : BTree α) (p : Path) (x : α)
    (hx : elemAt t p = some x) :
    inorderFrom t p = x ::
      (match after t p with
       | some q => inorderFrom t q
       | none => []) := by
  induction t generalizing p with
  | nil =>
      exfalso
      cases p with
      | nil => cases hx
      | cons d q => cases d <;> cases hx
  | node l e r ihl ihr =>
      cases p with
      | nil =>
          rw [elemAt_node_nil, Option.some.injEq] at hx
          subst hx
          rw [after_rootpath]
          cases r with
          | nil => rfl
          | node r1 r2 r3 =>
              show e :: inorder (BTree.node r1 r2 r3) =
                e :: inorderFrom (BTree.node r1 r2 r3)
                  (subtree_first_path (BTree.node r1 r2 r3))
              rw [inorderFrom_first (BTree.node r1 r2 r3) rfl]
      | cons d q =>
          cases d with
          | left =>
              rw [elemAt_consL] at hx
              have hql : validPos l q = true := validPos_of_elemAt l q x hx
              rw [after_consL l e r q hql]
              have ihq := ihl q hx
              show inorderFrom l q ++ e :: inorder r = _
              cases ha : after l q with
              | some u =>
                  rw [ha] at ihq
                  rw [ihq]
                  show (x :: inorderFrom l u) ++ e :: inorder r =
                    x :: inorderFrom (BTree.node l e r) (Dir.left :: u)
                  show (x :: inorderFrom l u) ++ e :: inorder r =
                    x :: (inorderFrom l u ++ e :: inorder r)
                  rfl
              | none =>
                  rw [ha] at ihq
                  rw [ihq]
                  show (x :: []) ++ e :: inorder r =
                    x :: inorderFrom (BTree.node l e r) []
                  rfl
          | right =>
              rw [elemAt_consR] at hx
              have hqr : validPos r q = true := validPos_of_elemAt r q x hx
              rw [after_consR l e r q hqr]
              have ihq := ihr q hx
              show inorderFrom r q = _
              cases ha : after r q with
              | some u =>
                  rw [ha] at ihq
                  rw [ihq]
                  rfl
              | none =>
                  rw [ha] at ihq
                  rw [ihq]
                  rfl

theorem after_valid {α : Type} (t : BTree α) (p q : Path)
    (hp : validPos t p = true) (ha : after t p = some q) :
    validPos t q = true := by
  induction t generalizing p q with
  | nil =>
      exfalso
      cases p with
      | nil => cases hp
      | cons d q2 => cases d <;> cases hp
  | node l e r ihl ihr =>
      cases p with
      | nil =>
          rw [after_rootpath] at ha
          cases r with
          | nil => cases ha
          | node r1 r2 r3 =>
              rw [Option.some.injEq] at ha
              subst ha
              rw [validPos_consR]
              exact first_path_valid _ rfl
      | cons d q2 =>
          cases d with
          | left =>
              rw [validPos_consL] at hp
              rw [after_consL l e r q2 hp] at ha
              cases ha2 : after l q2 with
              | some u =>
                  rw [ha2] at ha
                  rw [Option.some.injEq] at ha
                  subst ha
                  rw [validPos_consL]
                  exact ihl q2 u hp ha2
              | none =>
                  rw [ha2] at ha
                  rw [Option.some.injEq] at ha
                  subst ha
                  rfl
          | right =>
              rw [validPos_consR] at hp
              rw [after_consR l e r q2 hp] at ha
              cases ha2 : after r q2 with
              | some u =>
                  rw [ha2] at ha
                  simp only [Option.map_some', Option.some.injEq] at ha
                  subst ha
                  rw [validPos_consR]
                  exact ihr q2 u hp ha2
              | none => rw [ha2] at ha; cases ha

theorem find_range_loop_none {V : Type} (t : BTree (Int × V)) (fuel : Nat)
    (stop : Option Int) : find_range_loop t fuel none stop = [] := by
  cases fuel <;> rfl

theorem find_range_loop_succ {V : Type} (t : BTree (Int × V)) (n : Nat)
    (p : Path) (stop : Option Int) :
    find_range_loop t (n + 1) (some p) stop =
      (match elemAt t p with
       | some e =>
           match stop with
           | none => e :: find_range_loop t n (after t p) none
           | some s =>
               if e.1 < s then e :: find_range_loop t n (after t p) (some s)
               else []
       | none => []) := rfl

/-- The `find_range` while loop, started at a valid position with enough
fuel, yields the in-order suffix from that position truncated at the first
key that reaches `stop`. -/
theorem find_range_loop_spec {V : Type} (t : BTree (Int × V))
    (stop : Option Int) (fuel : Nat) :
    ∀ p, validPos t p = true → (inorderFrom t p).length ≤ fuel →
      find_range_loop t fuel (some p) stop =
        (inorderFrom t p).takeWhile (fun kv => stopCond stop kv.1) := by
  induction fuel with
  | zero =>
      intro p hp hlen
      have h0 : inorderFrom t p = [] := by
        cases hemp : inorderFrom t p with
        | nil => rfl
        | cons a as => rw [hemp] at hlen; simp at hlen
      rw [h0]
      rfl
  | succ n ih =>
      intro p hp hlen
      obtain ⟨x, hx⟩ := elemAt_of_validPos t p hp
      have hKL := inorderFrom_eq_cons t p x hx
      rw [find_range_loop_succ, hx]
      dsimp only
      cases stop with
      | none =>
          rw [hKL, List.takeWhile_cons,
            if_pos (show stopCond none x.1 = true from rfl)]
          cases ha : after t p with
          | none =>
              rw [find_range_loop_none]
              rfl
          | some q =>
              dsimp only
              have hq := after_valid t p q hp ha
              have hlen2 : (inorderFrom t q).length ≤ n := by
                rw [hKL, ha] at hlen
                simp only [List.length_cons] at hlen
                omega
              rw [ih q hq hlen2]
      | some s =>
          dsimp only
          by_cases hlt : x.1 < s
          · rw [if_pos hlt, hKL, List.takeWhile_cons,
              if_pos (show stopCond (some s) x.1 = true by
                simp [stopCond, hlt])]
            cases ha : after t p with
            | none =>
                rw [find_range_loop_none]
                rfl
            | some q =>
                dsimp only
                have hq := after_valid t p q hp ha
                have hlen2 : (inorderFrom t q).length ≤ n := by
                  rw [hKL, ha] at hlen
                  simp only [List.length_cons] at hlen
                  omega
                rw [ih q hq hlen2]
          · rw [if_neg hlt, hKL, List.takeWhile_cons,
              if_neg (show ¬ stopCond (some s) x.1 = true by
                simp [stopCond, hlt])]

/-! ## The `find_ge`-style initial position designates the first key `≥ s` -/

theorem ge_position_nil {V : Type} (s : Int) :
    ge_position (BTree.nil : BTree (Int × V)) s = none := rfl

theorem ge_position_node {V : Type} (l : BTree (Int × V)) (e : Int × V)
    (r : BTree (Int × V)) (s : Int) :
    ge_position (BTree.node l e r) s =
      (match elemAt (BTree.node l e r)
          (subtree_search (BTree.node l e r) s) with
       | some e2 =>
           if e2.1 < s then
             after (BTree.node l e r) (subtree_search (BTree.node l e r) s)
           else some (subtree_search (BTree.node l e r) s)
       | none => none) := rfl

theorem inorderFrom_ne_nil {α : Type} (t : BTree α) (p : Path)
    (h : validPos t p = true) : inorderFrom t p ≠ [] := by
  obtain ⟨x, hx⟩ := elemAt_of_validPos t p h
  rw [inorderFrom_eq_cons t p x hx]
  simp

theorem isEmpty_false_of_ne_nil {α : Type} (l : List α) (h : l ≠ []) :
    l.isEmpty = false := by
  cases l with
  | nil => exact absurd rfl h
  | cons a as => rfl

/-- `ge_position` (the common initial-position computation of `find_ge` and
`find_range`) either reports that every key is below `s`, or designates a
valid position whose in-order suffix is exactly the part of the traversal
from the first key `≥ s` on. -/
theorem ge_position_spec {V : Type} (t : BTree (Int × V)) (s : Int)
    (hb : BSTb t = true) :
    (ge_position t s = none → ∀ x ∈ inorder t, x.1 < s) ∧
    (∀ p, ge_position t s = some p → validPos t p = true ∧
      inorderFrom t p =
        (inorder t).dropWhile (fun kv => decide (kv.1 < s))) := by
  induction t with
  | nil =>
      refine ⟨fun _ x hx => ?_, fun p hp => ?_⟩
      · simp [inorder] at hx
      · rw [ge_position_nil] at hp
        cases hp
  | node l e r ihl ihr =>
      have hbn := hb
      rw [BSTb_node] at hbn
      obtain ⟨hkl, hkr, hbl, hbr⟩ := hbn
      have hl_lt : ∀ x ∈ inorder l, x.1 < e.1 := by
        intro x hx
        simpa using (allKeysB_iff _ l).1 hkl x hx
      have hr_gt : ∀ x ∈ inorder r, e.1 < x.1 := by
        intro x hx
        simpa using (allKeysB_iff _ r).1 hkr x hx
      have key :
          (ge_position (BTree.node l e r) s = none ∧
            ∀ x ∈ inorder (BTree.node l e r), x.1 < s) ∨
          (∃ p0, ge_position (BTree.node l e r) s = some p0 ∧
            validPos (BTree.node l e r) p0 = true ∧
            inorderFrom (BTree.node l e r) p0 =
              (inorder (BTree.node l e r)).dropWhile
                (fun kv => decide (kv.1 < s))) := by
        by_cases h1 : s = e.1
        · right
          have hsearch : subtree_search (BTree.node l e r) s = [] := by
            simp only [subtree_search, if_pos h1]
          refine ⟨[], ?_, rfl, ?_⟩
          · rw [ge_position_node, hsearch, elemAt_node_nil]
            dsimp only
            rw [if_neg (by omega)]
          · show e :: inorder r = _
            have hdl : (inorder l).dropWhile (fun kv => decide (kv.1 < s)) =
                [] :=
              List.dropWhile_eq_nil_iff.2 (fun x hx => by
                have := hl_lt x hx
                simp only [decide_eq_true_eq]
                omega)
            rw [show inorder (BTree.node l e r) =
              inorder l ++ e :: inorder r from rfl]
            rw [List.dropWhile_append, hdl]
            simp only [List.isEmpty_nil, if_true]
            rw [List.dropWhile_cons, if_neg (by simp; omega)]
        · by_cases h2 : s < e.1
          · cases l with
            | nil =>
                right
                have hsearch : subtree_search (BTree.node BTree.nil e r) s =
                    [] := by
                  simp only [subtree_search, if_neg h1, if_pos h2, isNil,
                    if_true]
                refine ⟨[], ?_, rfl, ?_⟩
                · rw [ge_position_node, hsearch, elemAt_node_nil]
                  dsimp only
                  rw [if_neg (by omega)]
                · show e :: inorder r = _
                  rw [show inorder (BTree.node BTree.nil e r) =
                    e :: inorder r from rfl]
                  rw [List.dropWhile_cons, if_neg (by simp; omega)]
            | node a0 b0 c0 =>
                have hsearch : subtree_search
                    (BTree.node (BTree.node a0 b0 c0) e r) s =
                    Dir.left :: subtree_search (BTree.node a0 b0 c0) s := by
                  simp only [subtree_search, if_neg h1, if_pos h2, isNil]
                  rfl
                obtain ⟨e2, he2⟩ := search_elem (BTree.node a0 b0 c0) s rfl
                have hvq : validPos (BTree.node a0 b0 c0)
                    (subtree_search (BTree.node a0 b0 c0) s) = true :=
                  validPos_of_elemAt _ _ _ he2
                have hgel : ge_position (BTree.node a0 b0 c0) s =
                    (if e2.1 < s then
                      after (BTree.node a0 b0 c0)
                        (subtree_search (BTree.node a0 b0 c0) s)
                     else some (subtree_search (BTree.node a0 b0 c0) s)) := by
                  rw [ge_position_node, he2]
                have hget : ge_position
                    (BTree.node (BTree.node a0 b0 c0) e r) s =
                    (if e2.1 < s then
                      after (BTree.node (BTree.node a0 b0 c0) e r)
                        (Dir.left :: subtree_search (BTree.node a0 b0 c0) s)
                     else some (Dir.left ::
                       subtree_search (BTree.node a0 b0 c0) s)) := by
                  rw [ge_position_node, hsearch, elemAt_consL, he2]
                by_cases hc : e2.1 < s
                · rw [if_pos hc] at hgel hget
                  rw [after_consL _ e r _ hvq] at hget
                  cases ha : after (BTree.node a0 b0 c0)
                      (subtree_search (BTree.node a0 b0 c0) s) with
                  | none =>
                      rw [ha] at hgel hget
                      right
                      have hall := (ihl hbl).1 hgel
                      have hdl : (inorder (BTree.node a0 b0 c0)).dropWhile
                          (fun kv => decide (kv.1 < s)) = [] :=
                        List.dropWhile_eq_nil_iff.2 (fun x hx => by
                          have := hall x hx
                          simp only [decide_eq_true_eq]
                          omega)
                      refine ⟨[], hget, rfl, ?_⟩
                      show e :: inorder r = _
                      rw [show inorder
                        (BTree.node (BTree.node a0 b0 c0) e r) =
                        inorder (BTree.node a0 b0 c0) ++ e :: inorder r
                        from rfl]
                      rw [List.dropWhile_append, hdl]
                      simp only [List.isEmpty_nil, if_true]
                      rw [List.dropWhile_cons, if_neg (by simp; omega)]
                  | some u =>
                      rw [ha] at hgel hget
                      right
                      obtain ⟨hvu, hinu⟩ := (ihl hbl).2 u hgel
                      refine ⟨Dir.left :: u, hget, ?_, ?_⟩
                      · rw [validPos_consL]
                        exact hvu
                      · show inorderFrom (BTree.node a0 b0 c0) u ++
                          e :: inorder r = _
                        rw [hinu]
                        rw [show inorder
                          (BTree.node (BTree.node a0 b0 c0) e r) =
                          inorder (BTree.node a0 b0 c0) ++ e :: inorder r
                          from rfl]
                        rw [List.dropWhile_append,
                          isEmpty_false_of_ne_nil _ (by
                            rw [← hinu]
                            exact inorderFrom_ne_nil _ _ hvu)]
                        simp only [Bool.false_eq_true, if_false]
                · rw [if_neg hc] at hgel hget
                  right
                  obtain ⟨hvu, hinu⟩ := (ihl hbl).2 _ hgel
                  refine ⟨Dir.left ::
                    subtree_search (BTree.node a0 b0 c0) s, hget, ?_, ?_⟩
                  · rw [validPos_consL]
                    exact hvu
                  · show inorderFrom (BTree.node a0 b0 c0)
                      (subtree_search (BTree.node a0 b0 c0) s) ++
                      e :: inorder r = _
                    rw [hinu]
                    rw [show inorder (BTree.node (BTree.node a0 b0 c0) e r) =
                      inorder (BTree.node a0 b0 c0) ++ e :: inorder r
                      from rfl]
                    rw [List.dropWhile_append,
                      isEmpty_false_of_ne_nil _ (by
                        rw [← hinu]
                        exact inorderFrom_ne_nil _ _ hvu)]
                    simp only [Bool.false_eq_true, if_false]
          · cases r with
            | nil =>
                left
                have hsearch : subtree_search (BTree.node l e BTree.nil) s =
                    [] := by
                  simp only [subtree_search, if_neg h1, if_neg h2, isNil,
                    if_true]
                constructor
                · rw [ge_position_node, hsearch, elemAt_node_nil]
                  dsimp only
                  rw [if_pos (by omega), after_rootpath]
                · intro x hx
                  rw [show inorder (BTree.node l e BTree.nil) =
                    inorder l ++ e :: ([] : List (Int × V)) from rfl] at hx
                  simp only [List.mem_append, List.mem_cons,
                    List.not_mem_nil, or_false] at hx
                  rcases hx with hx | rfl
                  · have := hl_lt x hx
                    omega
                  · omega
            | node a0 b0 c0 =>
                have hsearch : subtree_search
                    (BTree.node l e (BTree.node a0 b0 c0)) s =
                    Dir.right :: subtree_search (BTree.node a0 b0 c0) s := by
                  simp only [subtree_search, if_neg h1, if_neg h2, isNil]
                  rfl
                obtain ⟨e2, he2⟩ := search_elem (BTree.node a0 b0 c0) s rfl
                have hvq : validPos (BTree.node a0 b0 c0)
                    (subtree_search (BTree.node a0 b0 c0) s) = true :=
                  validPos_of_elemAt _ _ _ he2
                have hgel : ge_position (BTree.node a0 b0 c0) s =
                    (if e2.1 < s then
                      after (BTree.node a0 b0 c0)
                        (subtree_search (BTree.node a0 b0 c0) s)
                     else some (subtree_search (BTree.node a0 b0 c0) s)) := by
                  rw [ge_position_node, he2]
                have hget : ge_position
                    (BTree.node l e (BTree.node a0 b0 c0)) s =
                    (if e2.1 < s then
                      after (BTree.node l e (BTree.node a0 b0 c0))
                        (Dir.right :: subtree_search (BTree.node a0 b0 c0) s)
                     else some (Dir.right ::
                       subtree_search (BTree.node a0 b0 c0) s)) := by
                  rw [ge_position_node, hsearch, elemAt_consR, he2]
                have hdl : (inorder l).dropWhile
                    (fun kv => decide (kv.1 < s)) = [] :=
                  List.dropWhile_eq_nil_iff.2 (fun x hx => by
                    have := hl_lt x hx
                    simp only [decide_eq_true_eq]
                    omega)
                have hsplit : inorder (BTree.node l e (BTree.node a0 b0 c0)) =
                    inorder l ++ e :: inorder (BTree.node a0 b0 c0) := rfl
                have hdrop : (inorder
                    (BTree.node l e (BTree.node a0 b0 c0))).dropWhile
                    (fun kv => decide (kv.1 < s)) =
                    (inorder (BTree.node a0 b0 c0)).dropWhile
                      (fun kv => decide (kv.1 < s)) := by
                  rw [hsplit, List.dropWhile_append, hdl]
                  simp only [List.isEmpty_nil, if_true]
                  rw [List.dropWhile_cons, if_pos (by simp; omega)]
                by_cases hc : e2.1 < s
                · rw [if_pos hc] at hgel hget
                  rw [after_consR l e _ _ hvq] at hget
                  cases ha : after (BTree.node a0 b0 c0)
                      (subtree_search (BTree.node a0 b0 c0) s) with
                  | none =>
                      rw [ha] at hgel hget
                      left
                      have hall := (ihr hbr).1 hgel
                      refine ⟨hget, ?_⟩
                      intro x hx
                      rw [hsplit] at hx
                      simp only [List.mem_append, List.mem_cons] at hx
                      rcases hx with hx | rfl | hx
                      · have := hl_lt x hx
                        omega
                      · omega
                      · exact hall x hx
                  | some u =>
                      rw [ha] at hgel hget
                      right
                      obtain ⟨hvu, hinu⟩ := (ihr hbr).2 u hgel
                      refine ⟨Dir.right :: u, by simpa using hget, ?_, ?_⟩
                      · rw [validPos_consR]
                        exact hvu
                      · show inorderFrom (BTree.node a0 b0 c0) u = _
                        rw [hinu, hdrop]
                · rw [if_neg hc] at hgel hget
                  right
                  obtain ⟨hvu, hinu⟩ := (ihr hbr).2 _ hgel
                  refine ⟨Dir.right ::
                    subtree_search (BTree.node a0 b0 c0) s, hget, ?_, ?_⟩
                  · rw [validPos_consR]
                    exact hvu
                  · show inorderFrom (BTree.node a0 b0 c0)
                      (subtree_search (BTree.node a0 b0 c0) s) = _
                    rw [hinu, hdrop]
      rcases key with ⟨hnone, hall⟩ | ⟨p0, hp0, hv0, hin0⟩
      · refine ⟨fun _ => hall, fun p hp => ?_⟩
        rw [hnone] at hp
        cases hp
      · refine ⟨fun hn => ?_, fun p hp => ?_⟩
        · rw [hn] at hp0
          cases hp0
        · rw [hp0, Option.some.injEq] at hp
          subst hp
          exact ⟨hv0, hin0⟩

/-! ## Sorted-list bookkeeping for `find_range` -/

theorem dropWhile_eq_filter_sorted {V : Type} (s : Int)
    (L : List (Int × V)) (h : List.Pairwise (fun a b => a.1 < b.1) L) :
    L.dropWhile (fun kv => decide (kv.1 < s)) =
      L.filter (fun kv => decide (s ≤ kv.1)) := by
  induction L with
  | nil => rfl
  | cons a as ih =>
      rw [List.pairwise_cons] at h
      obtain ⟨ha, has⟩ := h
      by_cases hc : a.1 < s
      · rw [List.dropWhile_cons,
          if_pos (show decide (a.1 < s) = true by simp [hc]),
          List.filter_cons,
          if_neg (show ¬ decide (s ≤ a.1) = true by simp; omega)]
        exact ih has
      · rw [List.dropWhile_cons,
          if_neg (show ¬ decide (a.1 < s) = true by simp [hc]),
          List.filter_cons,
          if_pos (show decide (s ≤ a.1) = true by simp; omega)]
        congr 1
        symm
        exact List.filter_eq_self.2 (fun x hx => by
          have := ha x hx
          simp only [decide_eq_true_eq]
          omega)

theorem takeWhile_eq_filter_sorted {V : Type} (s : Int)
    (L : List (Int × V)) (h : List.Pairwise (fun a b => a.1 < b.1) L) :
    L.takeWhile (fun kv => decide (kv.1 < s)) =
      L.filter (fun kv => decide (kv.1 < s)) := by
  induction L with
  | nil => rfl
  | cons a as ih =>
      rw [List.pairwise_cons] at h
      obtain ⟨ha, has⟩ := h
      by_cases hc : a.1 < s
      · rw [List.takeWhile_cons,
          if_pos (show decide (a.1 < s) = true by simp [hc]),
          List.filter_cons,
          if_pos (show decide (a.1 < s) = true by simp [hc])]
        rw [ih has]
      · rw [List.takeWhile_cons,
          if_neg (show ¬ decide (a.1 < s) = true by simp [hc]),
          List.filter_cons,
          if_neg (show ¬ decide (a.1 < s) = true by simp [hc])]
        symm
        rw [List.filter_eq_nil_iff]
        intro x hx
        have := ha x hx
        simp only [decide_eq_true_eq]
        omega

theorem takeWhile_stopCond_none {V : Type} (L : List (Int × V)) :
    L.takeWhile (fun kv => stopCond none kv.1) = L := by
  induction L with
  | nil => rfl
  | cons a as ih =>
      rw [List.takeWhile_cons, if_pos (show stopCond none a.1 = true
        from rfl), ih]

theorem find_range_not_nil {V : Type} (t : BTree (Int × V))
    (hn : isNil t = false) (start stop : Option Int) :
    find_range t start stop =
      find_range_loop t (sizeT t)
        (match start with
         | none => some (subtree_first_path t)
         | some s => ge_position t s) stop := by
  unfold find_range
  simp only [hn, Bool.false_eq_true, if_false]

/-! ## C7 — `find_range` yields exactly the pairs in the half-open interval -/

/-- C7: on a map satisfying the BST invariant (as the map layer maintains),
`find_range(start, stop)` yields exactly the (key, value) pairs whose key `k`
satisfies `start ≤ k` (no constraint when `start` is `None`) and `k < stop`
(no constraint when `stop` is `None`), in ascending key order — it equals the
in-order traversal filtered to the half-open interval. -/
theorem c7_find_range_interval {V : Type} (t : BTree (Int × V))
    (hb : BSTb t = true) (start stop : Option Int) :
    find_range t start stop =
      (inorder t).filter
        (fun kv => startCond start kv.1 && stopCond stop kv.1) := by
  have hpw := pairwise_of_BSTb t hb
  cases hn : isNil t with
  | true =>
      cases t with
      | node _ _ _ => simp [isNil] at hn
      | nil => cases start <;> cases stop <;> rfl
  | false =>
      rw [find_range_not_nil t hn start stop]
      cases start with
      | none =>
          have hv := first_path_valid t hn
          have hlen : (inorderFrom t (subtree_first_path t)).length ≤
              sizeT t := by
            rw [inorderFrom_first t hn]
            exact Nat.le_refl _
          rw [find_range_loop_spec t stop (sizeT t) _ hv hlen,
            inorderFrom_first t hn]
          cases stop with
          | none =>
              rw [takeWhile_stopCond_none]
              symm
              exact List.filter_eq_self.2 (fun x _ => rfl)
          | some s2 =>
              rw [show (fun kv : Int × V => stopCond (some s2) kv.1) =
                (fun kv : Int × V => decide (kv.1 < s2)) from rfl]
              rw [takeWhile_eq_filter_sorted s2 _ hpw]
              exact List.filter_congr (fun x _ => by
                simp only [startCond, stopCond, Bool.true_and])
      | some s =>
          dsimp only
          obtain ⟨hnone, hsome⟩ := ge_position_spec t s hb
          cases hgp : ge_position t s with
          | none =>
              rw [find_range_loop_none]
              symm
              rw [List.filter_eq_nil_iff]
              intro x hx
              have := hnone hgp x hx
              simp only [startCond, Bool.and_eq_true, decide_eq_true_eq,
                not_and]
              intro hs
              omega
          | some p =>
              obtain ⟨hv, hin⟩ := hsome p hgp
              have hlen : (inorderFrom t p).length ≤ sizeT t := by
                rw [hin]
                exact (List.dropWhile_sublist _).length_le
              rw [find_range_loop_spec t stop (sizeT t) p hv hlen, hin,
                dropWhile_eq_filter_sorted s _ hpw]
              cases stop with
              | none =>
                  rw [takeWhile_stopCond_none]
                  exact List.filter_congr (fun x _ => by
                    simp only [startCond, stopCond, Bool.and_true])
              | some s2 =>
                  rw [show (fun kv : Int × V => stopCond (some s2) kv.1) =
                    (fun kv : Int × V => decide (kv.1 < s2)) from rfl]
                  rw [takeWhile_eq_filter_sorted s2 _
                    (hpw.sublist (List.filter_sublist _)),
                    List.filter_filter]
                  exact List.filter_congr (fun x _ => by
                    simp only [startCond, stopCond]
                    rw [Bool.and_comm])

/-- C7 witness: Scenario E — `find_range(5, 15)` over keys {2,5,7,10,12,18}
yields exactly the pairs with keys 5, 7, 10, 12 in ascending order. -/
theorem c7_find_range_interval_witness :
    BSTb tmScenarioE = true ∧
    find_range tmScenarioE (some 5) (some 15) =
      (inorder tmScenarioE).filter
        (fun kv => startCond (some 5) kv.1 && stopCond (some 15) kv.1) ∧
    find_range tmScenarioE (some 5) (some 15) =
      [(5, 0), (7, 0), (10, 0), (12, 0)] :=
  ⟨by decide, c7_find_range_interval tmScenarioE (by decide) (some 5)
    (some 15), by decide⟩

end A8
